import Mathlib

/-!
# Shallow embedding of goma-server `remoteexec/exec.go`

This file embeds, in Lean, the request-pipeline fragments of
`src/remoteexec/exec.go` that the verified properties are about:

* platform-property vetting (`isSafePlatformProperty`, the client-property
  loop of `request.getInventoryData`);
* environment-variable assembly (`createEnvVars`);
* the embedded-content upload batcher and hash-key checks
  (`uploadInputFiles`);
* Windows input de-duplication (`dedupInputs`);
* missing-input thinning and re-sorting (`thinOutMissing`, `sortMissing`);
* wrapper-strategy selection and the first-argv element
  (`request.newWrapperScript`, `request.newCommand`).

Go strings are compared byte-wise; UTF-8 byte order coincides with code-point
order, so Go's `<` on strings is embedded as code-point-lexicographic
comparison of the character lists, and Go's `len` on (ASCII) strings as the
character count.
-/

namespace GomaExec

/-- Lexicographic strict order on char lists by code point; embeds Go's
byte-wise `<` on strings (UTF-8 byte order equals code-point order). -/
def ltChars : List Char → List Char → Bool
  | _, [] => false
  | [], _ :: _ => true
  | a :: as, b :: bs =>
    if a.toNat < b.toNat then true
    else if b.toNat < a.toNat then false
    else ltChars as bs

/-- Go's `a < b` on strings. -/
def goStrLt (a b : String) : Bool := ltChars a.toList b.toList

/-- Go's `a <= b` on strings (used by `sort.Strings`). -/
def goStrLe (a b : String) : Bool := !(goStrLt b a)

/-- Go's `len(s)` for a string; character count (= byte count on ASCII). -/
def goStrLen (s : String) : Nat := s.toList.length

/-- `strings.ToLower` restricted to its ASCII action. -/
def goToLower (s : String) : String := String.mk (s.toList.map Char.toLower)

/-- `strings.ToUpper` restricted to its ASCII action. -/
def goToUpper (s : String) : String := String.mk (s.toList.map Char.toUpper)

/-- `strings.HasPrefix` (called via `strings.HasPrefix` in the source). -/
def goStartsWith (s pat : String) : Bool := List.isPrefixOf pat.toList s.toList

/-- One element of `ExecReq.Input`: a client file, optionally with embedded
content (`FileBlob` bytes) and with its declared hash key. -/
structure ExecInput where
  filename : String
  content : Option (List Nat) := none
  hashKey : String := ""
deriving DecidableEq

/-- The error enum of `ExecResp` (only the value the embedded code sets). -/
inductive RespError
  | badRequest
deriving DecidableEq

/-- The fields of `ExecResp` the embedded code manipulates. -/
structure ExecResp where
  error : Option RespError := none
  errorMessage : List String := []
  missingInput : List String := []
  missingReason : List String := []
deriving DecidableEq

/-! ## Platform properties (`exec.go` lines 220-264) -/

/-- `isSafePlatformProperty` (exec.go lines 243-251), verbatim. -/
def isSafePlatformProperty (name value : String) : Bool :=
  match name with
  | "container-image" => true
  | "InputRootAbsolutePath" => true
  | "cache-silo" => true
  | "dockerRuntime" => value == "runsc"
  | _ => false

/-- `request.addPlatformProperty` (exec.go lines 253-264): update the first
property of that name in place, else append. -/
def addPlatformProperty : List (String × String) → String → String → List (String × String)
  | [], name, value => [(name, value)]
  | p :: ps, name, value =>
    if p.1 = name then (p.1, value) :: ps
    else p :: addPlatformProperty ps name value

/-- One step of the client-property loop in `request.getInventoryData`
(exec.go lines 224-233): an unsafe property sets `Error = BAD_REQUEST` and
appends an error message; a safe one is applied to the platform. -/
def platformPropStep (st : ExecResp × List (String × String)) (pp : String × String) :
    ExecResp × List (String × String) :=
  if isSafePlatformProperty pp.1 pp.2 then
    (st.1, addPlatformProperty st.2 pp.1 pp.2)
  else
    ({ st.1 with
        error := some RespError.badRequest,
        errorMessage := st.1.errorMessage ++
          ["unsafe platform property: " ++ pp.1 ++ "=" ++ pp.2] },
      st.2)

/-- The client platform-property block of `request.getInventoryData`
(exec.go lines 223-237).  Returns the updated response, the updated platform
property list, and whether the function answered early with the response
(`len(r.gomaResp.ErrorMessage) > 0` after the loop). -/
def getInventoryDataPropsStep (props : List (String × String)) (resp : ExecResp)
    (platform : List (String × String)) :
    ExecResp × List (String × String) × Bool :=
  if props = [] then (resp, platform, false)
  else
    let st := props.foldl platformPropStep (resp, platform)
    (st.1, st.2, decide (st.1.errorMessage ≠ []))

/-! ## Environment variables (`createEnvVars`, exec.go lines 113-141) -/

/-- Go `strings.SplitN(s, "=", 2)`: `[s]` when `s` has no `'='`, otherwise
the part before the first `'='` and everything after it. -/
def splitN2 (s : String) : List String :=
  match s.toList.findIdx? (fun c => c = '=') with
  | none => [s]
  | some i => [String.mk (s.toList.take i), String.mk (s.toList.drop (i + 1))]

/-- In-place last-wins update of an association list; embeds the Go map
`envMap[key] = value` (`createEnvVars` keeps the keys unique, and sorts them
afterwards, so the map's iteration order is immaterial). -/
def envAssocUpdate : List (String × String) → String → String → List (String × String)
  | [], k, v => [(k, v)]
  | p :: ps, k, v => if p.1 = k then (k, v) :: ps else p :: envAssocUpdate ps k v

/-- The comparison handed to `sort.Strings`. -/
def strLE (a b : String) : Prop := goStrLe a b = true

instance : DecidableRel strLE := fun a b => instDecidableEqBool (goStrLe a b) true

/-- The per-element split of `createEnvVars`: `e := strings.SplitN(env, "=", 2)`
followed by the unguarded accesses `e[0], e[1]`; the `e[1]` access panics
(index out of range) when the element has no `'='`, embedded as `none`. -/
def envSplitKV (e : String) : Option (String × String) :=
  match splitN2 e with
  | [k, v] => some (k, v)
  | _ => none

/-- The `for _, env := range envs` loop of `createEnvVars`, propagating the
panic of any element. -/
def parseEnvs : List String → Option (List (String × String))
  | [] => some []
  | e :: es =>
    match envSplitKV e with
    | none => none
    | some kv =>
      match parseEnvs es with
      | none => none
      | some kvs => some (kv :: kvs)

/-- `createEnvVars` (exec.go lines 113-141): split each element, build the
last-wins map (embedded as an in-place-updating association list: keys stay
unique, so the Go map's iteration order is immaterial), sort the key list
with `sort.Strings`, and emit (name, value) pairs. -/
def createEnvVars (envs : List String) : Option (List (String × String)) :=
  match parseEnvs envs with
  | none => none
  | some kvs =>
    let m := kvs.foldl (fun m kv => envAssocUpdate m kv.1 kv.2) []
    let keys := List.insertionSort strLE (m.map (fun p => p.1))
    some (keys.map (fun k => (k, (m.lookup k).getD "")))

/-- The key component `e[0]` of an environment entry. -/
def goEnvKey (e : String) : String := (splitN2 e).headI

/-- The value the Go map holds for `k` after processing `envs`:
the value of the last entry whose key is `k` (spec wording: duplicates
collapsed last-wins). -/
def envLastValue (envs : List String) (k : String) : Option String :=
  (envs.filterMap (fun e =>
    match splitN2 e with
    | [k', v] => if k' = k then some v else none
    | _ => none)).getLast?

end GomaExec

/-! ## Order facts about the embedded Go string comparison -/

namespace GomaExec

theorem char_toNat_inj {a b : Char} (h : a.toNat = b.toNat) : a = b := by
  apply Char.ext; exact UInt32.toNat.inj h

theorem ltChars_irrefl : ∀ l : List Char, ltChars l l = false := by
  intro l
  induction l with
  | nil => rfl
  | cons a as ih => simp [ltChars, ih]

theorem ltChars_asymm : ∀ a b : List Char, ltChars a b = true → ltChars b a = false := by
  intro a
  induction a with
  | nil => intro b h; cases b <;> simp_all [ltChars]
  | cons x xs ih =>
    intro b h
    cases b with
    | nil => simp [ltChars] at h
    | cons y ys =>
      simp only [ltChars] at h ⊢
      rcases Nat.lt_trichotomy x.toNat y.toNat with hlt | heq | hgt
      · simp [hlt, Nat.lt_asymm hlt]
      · simp only [heq, Nat.lt_irrefl, if_false] at h ⊢
        exact ih ys h
      · simp [hgt, Nat.lt_asymm hgt] at h

theorem ltChars_trans : ∀ a b c : List Char,
    ltChars a b = true → ltChars b c = true → ltChars a c = true := by
  intro a
  induction a with
  | nil =>
    intro b c hab hbc
    cases c with
    | nil => cases b <;> simp_all [ltChars]
    | cons z zs => simp [ltChars]
  | cons x xs ih =>
    intro b c hab hbc
    cases b with
    | nil => simp [ltChars] at hab
    | cons y ys =>
      cases c with
      | nil => simp [ltChars] at hbc
      | cons z zs =>
        simp only [ltChars] at hab hbc ⊢
        rcases Nat.lt_trichotomy x.toNat y.toNat with hxy | hxy | hxy
        · rcases Nat.lt_trichotomy y.toNat z.toNat with hyz | hyz | hyz
          · simp [Nat.lt_trans hxy hyz]
          · simp [hyz ▸ hxy]
          · simp [hyz, Nat.lt_asymm hyz] at hbc
        · rcases Nat.lt_trichotomy y.toNat z.toNat with hyz | hyz | hyz
          · simp [hxy ▸ hyz]
          · have hxz : x.toNat = z.toNat := hxy.trans hyz
            simp only [hxy, Nat.lt_irrefl, if_false] at hab
            simp only [hyz, Nat.lt_irrefl, if_false] at hbc
            simp only [hxz, Nat.lt_irrefl, if_false]
            exact ih ys zs hab hbc
          · simp [hyz, Nat.lt_asymm hyz] at hbc
        · simp [hxy, Nat.lt_asymm hxy] at hab

theorem ltChars_connex : ∀ a b : List Char,
    ltChars a b = false → ltChars b a = false → a = b := by
  intro a
  induction a with
  | nil => intro b h _; cases b <;> simp_all [ltChars]
  | cons x xs ih =>
    intro b hab hba
    cases b with
    | nil => simp [ltChars] at hba
    | cons y ys =>
      simp only [ltChars] at hab hba
      rcases Nat.lt_trichotomy x.toNat y.toNat with hxy | hxy | hxy
      · simp [hxy] at hab
      · simp only [hxy, Nat.lt_irrefl, if_false] at hab hba
        have : x = y := char_toNat_inj hxy
        rw [this, ih ys hab hba]
      · simp [hxy, Nat.lt_asymm hxy] at hba

theorem string_toList_inj {a b : String} (h : a.toList = b.toList) : a = b :=
  String.ext h

theorem goStr_eq_of_le_le {a b : String} (h1 : goStrLe a b = true) (h2 : goStrLe b a = true) :
    a = b := by
  simp only [goStrLe, goStrLt, Bool.not_eq_true'] at h1 h2
  exact string_toList_inj (ltChars_connex a.toList b.toList h2 h1)

theorem goStrLt_of_le_of_ne {a b : String} (h1 : goStrLe a b = true) (h2 : a ≠ b) :
    goStrLt a b = true := by
  simp only [goStrLe, goStrLt, Bool.not_eq_true'] at h1 ⊢
  cases hab : ltChars a.toList b.toList with
  | true => rfl
  | false =>
    exact absurd (string_toList_inj (ltChars_connex a.toList b.toList hab h1)) h2

instance : IsTotal String strLE := by
  constructor
  intro a b
  show goStrLe a b = true ∨ goStrLe b a = true
  simp only [goStrLe, goStrLt, Bool.not_eq_true']
  cases h : ltChars b.toList a.toList with
  | false => exact Or.inl rfl
  | true => exact Or.inr (ltChars_asymm _ _ h)

instance : IsTrans String strLE := by
  constructor
  intro a b c hab hbc
  have hab' : ltChars b.toList a.toList = false := by
    have h := hab
    unfold strLE goStrLe goStrLt at h
    simp only [Bool.not_eq_true'] at h
    exact h
  have hbc' : ltChars c.toList b.toList = false := by
    have h := hbc
    unfold strLE goStrLe goStrLt at h
    simp only [Bool.not_eq_true'] at h
    exact h
  show goStrLe a c = true
  simp only [goStrLe, goStrLt, Bool.not_eq_true']
  cases hca : ltChars c.toList a.toList with
  | false => rfl
  | true =>
    exfalso
    cases hbc2 : ltChars b.toList c.toList with
    | false =>
      have hbceq : b.toList = c.toList := ltChars_connex _ _ hbc2 hbc'
      rw [← hbceq] at hca
      rw [hca] at hab'
      exact Bool.noConfusion hab'
    | true =>
      have h2 : ltChars b.toList a.toList = true := ltChars_trans _ _ _ hbc2 hca
      rw [h2] at hab'
      exact Bool.noConfusion hab'

end GomaExec

/-! ## Helper lemmas for the platform-property loop -/

namespace GomaExec

theorem platformProps_foldl_all_safe (props : List (String × String))
    (st : ExecResp × List (String × String))
    (h : ∀ p ∈ props, isSafePlatformProperty p.1 p.2 = true) :
    (props.foldl platformPropStep st).1 = st.1 := by
  induction props generalizing st with
  | nil => rfl
  | cons p ps ih =>
    have hp : isSafePlatformProperty p.1 p.2 = true := h p (List.mem_cons_self p ps)
    simp only [List.foldl_cons, platformPropStep, hp, if_true]
    exact ih _ (fun q hq => h q (List.mem_cons_of_mem p hq))

theorem platformProps_foldl_keeps_error (props : List (String × String))
    (st : ExecResp × List (String × String))
    (h : st.1.error = some RespError.badRequest ∧ st.1.errorMessage ≠ []) :
    (props.foldl platformPropStep st).1.error = some RespError.badRequest ∧
      (props.foldl platformPropStep st).1.errorMessage ≠ [] := by
  induction props generalizing st with
  | nil => exact h
  | cons p ps ih =>
    simp only [List.foldl_cons]
    apply ih
    unfold platformPropStep
    by_cases hp : isSafePlatformProperty p.1 p.2 = true
    · simpa [hp] using h
    · simp only [Bool.not_eq_true] at hp
      refine ⟨by simp [hp], ?_⟩
      simp [hp]

theorem platformProps_foldl_bad (props : List (String × String))
    (st : ExecResp × List (String × String))
    (h : ∃ p ∈ props, isSafePlatformProperty p.1 p.2 = false) :
    (props.foldl platformPropStep st).1.error = some RespError.badRequest ∧
      (props.foldl platformPropStep st).1.errorMessage ≠ [] := by
  induction props generalizing st with
  | nil => simp at h
  | cons p ps ih =>
    simp only [List.foldl_cons]
    by_cases hp : isSafePlatformProperty p.1 p.2 = false
    · apply platformProps_foldl_keeps_error
      unfold platformPropStep
      refine ⟨by simp [hp], ?_⟩
      simp [hp]
    · rcases h with ⟨q, hq, hqf⟩
      rcases List.mem_cons.mp hq with rfl | hq'
      · exact absurd hqf hp
      · exact ih _ ⟨q, hq', hqf⟩

/-- claim C8 helper: the safe-name characterization. -/
theorem isSafePlatformProperty_iff (name value : String) :
    isSafePlatformProperty name value = true ↔
      (name = "container-image" ∨ name = "InputRootAbsolutePath" ∨ name = "cache-silo" ∨
        (name = "dockerRuntime" ∧ value = "runsc")) := by
  unfold isSafePlatformProperty
  split <;> simp_all

end GomaExec

/-! ## Claim theorems C8 and C10 -/

namespace GomaExec

/-- C8: a client-supplied platform property is accepted iff its name is one of
`container-image`, `InputRootAbsolutePath`, `cache-silo`, or it is
`dockerRuntime` with value exactly `runsc`; and a request carrying any
client-supplied property outside this set is answered with a `BAD_REQUEST`
error response (the property block returns the response, with
`Error = BAD_REQUEST`). -/
theorem safePlatformProperty_spec (props : List (String × String)) (resp : ExecResp)
    (platform : List (String × String)) (hmsg : resp.errorMessage = []) :
    (∀ name value, isSafePlatformProperty name value = true ↔
      (name = "container-image" ∨ name = "InputRootAbsolutePath" ∨ name = "cache-silo" ∨
        (name = "dockerRuntime" ∧ value = "runsc"))) ∧
    ((getInventoryDataPropsStep props resp platform).2.2 = true ↔
      ∃ p ∈ props, isSafePlatformProperty p.1 p.2 = false) ∧
    ((getInventoryDataPropsStep props resp platform).2.2 = true →
      (getInventoryDataPropsStep props resp platform).1.error = some RespError.badRequest) := by
  refine ⟨isSafePlatformProperty_iff, ?_, ?_⟩
  · unfold getInventoryDataPropsStep
    by_cases hnil : props = []
    · simp [hnil]
    · simp only [hnil, if_false, decide_eq_true_eq]
      constructor
      · intro hne
        by_contra hall
        push_neg at hall
        have hsafe : ∀ p ∈ props, isSafePlatformProperty p.1 p.2 = true := by
          intro p hp
          have := hall p hp
          revert this
          cases isSafePlatformProperty p.1 p.2 <;> simp
        have := platformProps_foldl_all_safe props (resp, platform) hsafe
        rw [this] at hne
        exact hne hmsg
      · intro hex
        exact (platformProps_foldl_bad props (resp, platform) hex).2
  · unfold getInventoryDataPropsStep
    by_cases hnil : props = []
    · simp [hnil]
    · simp only [hnil, if_false, decide_eq_true_eq]
      intro hne
      by_cases hall : ∀ p ∈ props, isSafePlatformProperty p.1 p.2 = true
      · have := platformProps_foldl_all_safe props (resp, platform) hall
        rw [this] at hne
        exact absurd hmsg hne
      · push_neg at hall
        rcases hall with ⟨p, hp, hpf⟩
        have hpf' : isSafePlatformProperty p.1 p.2 = false := by
          revert hpf
          cases isSafePlatformProperty p.1 p.2 <;> simp
        exact (platformProps_foldl_bad props (resp, platform) ⟨p, hp, hpf'⟩).1

/-- Witness for C8 at a concrete unsafe property. -/
theorem safePlatformProperty_spec_witness :
    (getInventoryDataPropsStep [("dockerRuntime", "gvisor")] {} []).2.2 = true :=
  (safePlatformProperty_spec [("dockerRuntime", "gvisor")] {} [] rfl).2.1.mpr
    ⟨("dockerRuntime", "gvisor"), by decide⟩

theorem splitN2_cases (e : String) :
    ('=' ∈ e.toList → (splitN2 e).length = 2) ∧ ('=' ∉ e.toList → splitN2 e = [e]) := by
  unfold splitN2
  cases h : e.toList.findIdx? (fun c => c = '=') with
  | none =>
    constructor
    · intro hmem
      have hall := List.findIdx?_eq_none_iff.mp h
      have := hall '=' hmem
      simp at this
    · intro _; rfl
  | some i =>
    constructor
    · intro _; rfl
    · intro hnot
      have : e.toList.findIdx? (fun c => c = '=') = none := by
        apply List.findIdx?_eq_none_iff.mpr
        intro x hx
        have hne : x ≠ '=' := fun hxe => hnot (hxe ▸ hx)
        simp [hne]
      rw [this] at h
      exact Option.noConfusion h

theorem envSplitKV_isSome (e : String) :
    (envSplitKV e).isSome = true ↔ '=' ∈ e.toList := by
  rcases splitN2_cases e with ⟨h2, h1⟩
  by_cases hmem : '=' ∈ e.toList
  · have hlen := h2 hmem
    unfold envSplitKV
    cases hsp : splitN2 e with
    | nil => rw [hsp] at hlen; simp at hlen
    | cons k t =>
      cases t with
      | nil => rw [hsp] at hlen; simp at hlen
      | cons v t2 =>
        cases t2 with
        | nil =>
          simp only [Option.isSome_some, true_iff]
          exact hmem
        | cons w t3 => rw [hsp] at hlen; simp at hlen
  · unfold envSplitKV
    rw [h1 hmem]
    simp only [Option.isSome_none, Bool.false_eq_true, false_iff]
    exact hmem

theorem parseEnvs_isSome (envs : List String) :
    (parseEnvs envs).isSome = true ↔ ∀ e ∈ envs, '=' ∈ e.toList := by
  induction envs with
  | nil => simp [parseEnvs]
  | cons e es ih =>
    unfold parseEnvs
    cases hkv : envSplitKV e with
    | none =>
      have hnm : ¬ '=' ∈ e.toList := by
        have h := envSplitKV_isSome e
        rw [hkv] at h
        simpa using h
      simp only [Option.isSome_none, Bool.false_eq_true, false_iff]
      intro hall
      exact hnm (hall e (List.mem_cons_self e es))
    | some kv =>
      cases hrec : parseEnvs es with
      | none =>
        rw [hrec] at ih
        simp only [Option.isSome_none, Bool.false_eq_true, false_iff] at ih ⊢
        intro hall
        exact ih (fun x hx => hall x (List.mem_cons_of_mem e hx))
      | some kvs =>
        rw [hrec] at ih
        simp only [Option.isSome_some, true_iff] at ih ⊢
        intro x hx
        rcases List.mem_cons.mp hx with rfl | hx'
        · have h := envSplitKV_isSome x
          rw [hkv] at h
          exact h.mp rfl
        · exact ih x hx'

/-- C10: `createEnvVars` is defined (no out-of-bounds access, embedded as
`some`) exactly when every element of the environment list contains at least
one `'='`; `strings.SplitN(e, "=", 2)` yields two components when `'='`
occurs in `e` and the single-component list `[e]` (making the access `e[1]`
out of bounds) otherwise. -/
theorem createEnvVars_requires_eq (envs : List String) :
    ((createEnvVars envs).isSome = true ↔ ∀ e ∈ envs, '=' ∈ e.toList) ∧
    (∀ e : String,
      ('=' ∈ e.toList → (splitN2 e).length = 2) ∧ ('=' ∉ e.toList → splitN2 e = [e])) := by
  refine ⟨?_, splitN2_cases⟩
  unfold createEnvVars
  have h := parseEnvs_isSome envs
  cases hp : parseEnvs envs with
  | none =>
    rw [hp] at h
    simpa using h
  | some kvs =>
    rw [hp] at h
    simpa using h

/-- Witness for C10: a concrete environment where every element has `'='`. -/
theorem createEnvVars_requires_eq_witness :
    (createEnvVars ["PATH=/bin", "HOME=/root"]).isSome = true :=
  (createEnvVars_requires_eq ["PATH=/bin", "HOME=/root"]).1.mpr (by decide)

end GomaExec

/-! ## Claim C7: sorted, last-wins environment variables -/

namespace GomaExec

/-- The value component `e[1]` of an environment entry. -/
def goEnvVal (e : String) : String := (splitN2 e).tail.headI

/-- Spec-side description of the final association-list value: the value of
the last matching pair. -/
def lastPairValue (kvs : List (String × String)) (k : String) : Option String :=
  (kvs.filterMap (fun kv => if kv.1 = k then some kv.2 else none)).getLast?

/-- The map built by the `createEnvVars` loop. -/
def buildEnvMap (kvs : List (String × String)) : List (String × String) :=
  kvs.foldl (fun m kv => envAssocUpdate m kv.1 kv.2) []

theorem splitN2_pair {e : String} (h : '=' ∈ e.toList) :
    splitN2 e = [goEnvKey e, goEnvVal e] := by
  have hlen := (splitN2_cases e).1 h
  cases hsp : splitN2 e with
  | nil => rw [hsp] at hlen; simp at hlen
  | cons k t =>
    cases t with
    | nil => rw [hsp] at hlen; simp at hlen
    | cons v t2 =>
      cases t2 with
      | nil => simp [goEnvKey, goEnvVal, hsp]
      | cons w t3 => rw [hsp] at hlen; simp at hlen

theorem envSplitKV_of_mem {e : String} (h : '=' ∈ e.toList) :
    envSplitKV e = some (goEnvKey e, goEnvVal e) := by
  unfold envSplitKV
  rw [splitN2_pair h]

theorem parseEnvs_eq_map {envs : List String} (h : ∀ e ∈ envs, '=' ∈ e.toList) :
    parseEnvs envs = some (envs.map (fun e => (goEnvKey e, goEnvVal e))) := by
  induction envs with
  | nil => rfl
  | cons e es ih =>
    unfold parseEnvs
    rw [envSplitKV_of_mem (h e (List.mem_cons_self e es)),
      ih (fun x hx => h x (List.mem_cons_of_mem e hx))]
    simp

theorem envAssocUpdate_lookup (m : List (String × String)) (k v k' : String) :
    (envAssocUpdate m k v).lookup k' = if k' = k then some v else m.lookup k' := by
  induction m with
  | nil =>
    by_cases h : k' = k
    · simp [envAssocUpdate, List.lookup, h]
    · simp [envAssocUpdate, List.lookup, h, beq_eq_false_iff_ne.mpr h]
  | cons p ps ih =>
    rcases p with ⟨p1, p2⟩
    by_cases hp : p1 = k
    · subst hp
      by_cases h : k' = p1
      · subst h
        simp [envAssocUpdate, List.lookup]
      · simp [envAssocUpdate, List.lookup, beq_eq_false_iff_ne.mpr h, h]
    · by_cases h : k' = k
      · subst h
        have hne : k' ≠ p1 := fun he => hp he.symm
        simp [envAssocUpdate, hp, List.lookup, beq_eq_false_iff_ne.mpr hne, ih]
      · by_cases h2 : k' = p1
        · subst h2
          simp [envAssocUpdate, hp, List.lookup, h]
        · simp [envAssocUpdate, hp, List.lookup, beq_eq_false_iff_ne.mpr h2, ih, h]

theorem envAssocUpdate_keys_mem (m : List (String × String)) (k v : String)
    (h : k ∈ m.map Prod.fst) :
    (envAssocUpdate m k v).map Prod.fst = m.map Prod.fst := by
  induction m with
  | nil => simp at h
  | cons p ps ih =>
    by_cases hp : p.1 = k
    · simp [envAssocUpdate, hp]
    · have h' : k ∈ ps.map Prod.fst := by
        rcases List.mem_cons.mp h with he | hm
        · exact absurd he.symm hp
        · exact hm
      simp [envAssocUpdate, hp, ih h']

theorem envAssocUpdate_keys_new (m : List (String × String)) (k v : String)
    (h : ¬ k ∈ m.map Prod.fst) :
    envAssocUpdate m k v = m ++ [(k, v)] := by
  induction m with
  | nil => rfl
  | cons p ps ih =>
    have hp : ¬ p.1 = k := by
      intro he
      exact h (by simp [he])
    have h' : ¬ k ∈ ps.map Prod.fst := fun hm => h (by simp [hm])
    simp [envAssocUpdate, hp, ih h']

theorem envAssocUpdate_keys_nodup (m : List (String × String)) (k v : String)
    (h : (m.map Prod.fst).Nodup) :
    ((envAssocUpdate m k v).map Prod.fst).Nodup := by
  by_cases hm : k ∈ m.map Prod.fst
  · rw [envAssocUpdate_keys_mem m k v hm]; exact h
  · rw [envAssocUpdate_keys_new m k v hm]
    simp only [List.map_append, List.map_cons, List.map_nil]
    rw [List.nodup_append]
    refine ⟨h, List.nodup_singleton _, ?_⟩
    intro x hx hxk
    rcases List.mem_singleton.mp hxk with rfl
    exact hm hx

theorem envAssocUpdate_keys_mem_iff (m : List (String × String)) (k v k' : String) :
    k' ∈ (envAssocUpdate m k v).map Prod.fst ↔ (k' = k ∨ k' ∈ m.map Prod.fst) := by
  by_cases hm : k ∈ m.map Prod.fst
  · rw [envAssocUpdate_keys_mem m k v hm]
    constructor
    · exact Or.inr
    · rintro (rfl | h)
      · exact hm
      · exact h
  · rw [envAssocUpdate_keys_new m k v hm]
    simp [or_comm]

theorem buildEnvMap_keys_nodup (kvs : List (String × String)) :
    ((buildEnvMap kvs).map Prod.fst).Nodup := by
  suffices hgen : ∀ m : List (String × String), (m.map Prod.fst).Nodup →
      ((kvs.foldl (fun m kv => envAssocUpdate m kv.1 kv.2) m).map Prod.fst).Nodup by
    exact hgen [] (by simp)
  induction kvs with
  | nil => intro m hm; exact hm
  | cons kv rest ih =>
    intro m hm
    exact ih _ (envAssocUpdate_keys_nodup m kv.1 kv.2 hm)

theorem buildEnvMap_concat (kvs : List (String × String)) (kv : String × String) :
    buildEnvMap (kvs ++ [kv]) = envAssocUpdate (buildEnvMap kvs) kv.1 kv.2 := by
  unfold buildEnvMap
  rw [List.foldl_append]
  rfl

theorem buildEnvMap_lookup (kvs : List (String × String)) (k : String) :
    (buildEnvMap kvs).lookup k = lastPairValue kvs k := by
  induction kvs using List.reverseRecOn with
  | nil => rfl
  | append_singleton rest kv ih =>
    rw [buildEnvMap_concat, envAssocUpdate_lookup]
    unfold lastPairValue
    rw [List.filterMap_append]
    by_cases h : k = kv.1
    · simp only [List.filterMap_cons, List.filterMap_nil]
      rw [if_pos h.symm]
      simp [h]
    · have : kv.1 ≠ k := fun he => h he.symm
      simp only [List.filterMap_cons, List.filterMap_nil]
      rw [if_neg this]
      simp only [List.append_nil, if_neg h]
      exact ih

theorem buildEnvMap_keys_mem (kvs : List (String × String)) (k : String) :
    k ∈ (buildEnvMap kvs).map Prod.fst ↔ k ∈ kvs.map Prod.fst := by
  induction kvs using List.reverseRecOn with
  | nil => simp [buildEnvMap]
  | append_singleton rest kv ih =>
    rw [buildEnvMap_concat]
    rw [envAssocUpdate_keys_mem_iff, ih, List.map_append]
    simp only [List.map_cons, List.map_nil, List.mem_append, List.mem_singleton]
    exact or_comm

theorem mem_keys_lookup_isSome (m : List (String × String)) (k : String)
    (h : k ∈ m.map Prod.fst) : ∃ v, m.lookup k = some v := by
  induction m with
  | nil => simp at h
  | cons p ps ih =>
    by_cases hp : k = p.1
    · rcases p with ⟨p1, p2⟩
      simp only at hp
      exact ⟨p2, by simp [List.lookup, hp]⟩
    · rcases p with ⟨p1, p2⟩
      simp only at hp
      have h' : k ∈ ps.map Prod.fst := by
        simp only [List.map_cons] at h
        rcases List.mem_cons.mp h with he | hm
        · exact absurd he hp
        · exact hm
      rcases ih h' with ⟨v, hv⟩
      exact ⟨v, by simp [List.lookup, beq_eq_false_iff_ne.mpr hp, hv]⟩

end GomaExec

namespace GomaExec

theorem envLastValue_eq_lastPair {envs : List String} (h : ∀ e ∈ envs, '=' ∈ e.toList)
    (k : String) :
    envLastValue envs k =
      lastPairValue (envs.map (fun e => (goEnvKey e, goEnvVal e))) k := by
  unfold envLastValue lastPairValue
  rw [List.filterMap_map]
  congr 1
  apply List.filterMap_congr
  intro e he
  simp only [Function.comp]
  rw [splitN2_pair (h e he)]

theorem createEnvVars_eq_some {envs : List String} {kvs : List (String × String)}
    (hp : parseEnvs envs = some kvs) :
    createEnvVars envs =
      some ((List.insertionSort strLE ((buildEnvMap kvs).map (fun p => p.1))).map
        (fun k => (k, ((buildEnvMap kvs).lookup k).getD ""))) := by
  unfold createEnvVars buildEnvMap
  rw [hp]

/-- C7: `createEnvVars` (whose result `request.newCommand` stores unchanged in
`Command.EnvironmentVariables`, exec.go lines 1225 and 1231) produces a list
whose names are strictly increasing in the byte-wise lexicographic order, in
which every name carries the value of its last occurrence in the request's
environment list (duplicates collapsed last-wins before sorting), and whose
name set is exactly the set of keys occurring in the environment list. -/
theorem createEnvVars_sorted_lastWins (envs : List String)
    (h : ∀ e ∈ envs, '=' ∈ e.toList) :
    ∃ l, createEnvVars envs = some l ∧
      (l.map Prod.fst).Pairwise (fun a b => goStrLt a b = true) ∧
      (∀ kv ∈ l, envLastValue envs kv.1 = some kv.2) ∧
      (∀ k, k ∈ l.map Prod.fst ↔ k ∈ envs.map goEnvKey) := by
  have hp := parseEnvs_eq_map h
  have heq := createEnvVars_eq_some hp
  refine ⟨_, heq, ?_, ?_, ?_⟩
  · have hsorted : List.Sorted strLE
        (List.insertionSort strLE
          ((buildEnvMap (envs.map (fun e => (goEnvKey e, goEnvVal e)))).map (fun p => p.1))) :=
      List.sorted_insertionSort strLE _
    have hnodup : (List.insertionSort strLE
        ((buildEnvMap (envs.map (fun e => (goEnvKey e, goEnvVal e)))).map (fun p => p.1))).Nodup :=
      (List.perm_insertionSort strLE _).symm.nodup
        (by
          have := buildEnvMap_keys_nodup (envs.map (fun e => (goEnvKey e, goEnvVal e)))
          simpa using this)
    have hcomb := List.Pairwise.and hsorted hnodup
    have hlt : List.Pairwise (fun a b => goStrLt a b = true)
        (List.insertionSort strLE
          ((buildEnvMap (envs.map (fun e => (goEnvKey e, goEnvVal e)))).map (fun p => p.1))) :=
      hcomb.imp (fun hab => goStrLt_of_le_of_ne hab.1 hab.2)
    have hmapid : (List.map
        (fun k => (k, ((buildEnvMap (envs.map (fun e => (goEnvKey e, goEnvVal e)))).lookup k).getD ""))
        (List.insertionSort strLE
          ((buildEnvMap (envs.map (fun e => (goEnvKey e, goEnvVal e)))).map (fun p => p.1)))).map
          Prod.fst =
        List.insertionSort strLE
          ((buildEnvMap (envs.map (fun e => (goEnvKey e, goEnvVal e)))).map (fun p => p.1)) := by
      rw [List.map_map]
      exact List.map_id _
    rw [hmapid]
    exact hlt
  · intro kv hkv
    rcases List.mem_map.mp hkv with ⟨k, hk, rfl⟩
    have hkm : k ∈ (buildEnvMap (envs.map (fun e => (goEnvKey e, goEnvVal e)))).map
        (fun p => p.1) := ((List.perm_insertionSort strLE _).mem_iff).mp hk
    have hkm' : k ∈ (buildEnvMap (envs.map (fun e => (goEnvKey e, goEnvVal e)))).map
        Prod.fst := by simpa using hkm
    rcases mem_keys_lookup_isSome _ k hkm' with ⟨v, hv⟩
    have hbridge := envLastValue_eq_lastPair h k
    rw [hbridge, ← buildEnvMap_lookup, hv]
    simp [hv]
  · intro k
    have h1 : (k ∈ (List.insertionSort strLE
        ((buildEnvMap (envs.map (fun e => (goEnvKey e, goEnvVal e)))).map (fun p => p.1))) ↔
          k ∈ (buildEnvMap (envs.map (fun e => (goEnvKey e, goEnvVal e)))).map Prod.fst) := by
      rw [(List.perm_insertionSort strLE _).mem_iff]
    have h2 := buildEnvMap_keys_mem (envs.map (fun e => (goEnvKey e, goEnvVal e))) k
    constructor
    · intro hmem
      have hk : k ∈ (List.insertionSort strLE
          ((buildEnvMap (envs.map (fun e => (goEnvKey e, goEnvVal e)))).map (fun p => p.1))) := by
        rcases List.mem_map.mp hmem with ⟨kv, hkv, rfl⟩
        rcases List.mem_map.mp hkv with ⟨k', hk', rfl⟩
        exact hk'
      have := h2.mp (h1.mp hk)
      simpa [List.map_map, Function.comp, goEnvKey] using this
    · intro hmem
      have hkvs : k ∈ (envs.map (fun e => (goEnvKey e, goEnvVal e))).map Prod.fst := by
        simpa [List.map_map, Function.comp, goEnvKey] using hmem
      have hk := h1.mpr (h2.mpr hkvs)
      exact List.mem_map.mpr ⟨(k, ((buildEnvMap (envs.map (fun e => (goEnvKey e, goEnvVal e)))).lookup k).getD ""),
        List.mem_map.mpr ⟨k, hk, rfl⟩, rfl⟩

/-- Witness for C7 at a concrete environment with a duplicate key. -/
theorem createEnvVars_sorted_lastWins_witness :
    ∃ l, createEnvVars ["B=2", "A=1", "B=3"] = some l ∧
      (l.map Prod.fst).Pairwise (fun a b => goStrLt a b = true) ∧
      (∀ kv ∈ l, envLastValue ["B=2", "A=1", "B=3"] kv.1 = some kv.2) ∧
      (∀ k, k ∈ l.map Prod.fst ↔ k ∈ ["B=2", "A=1", "B=3"].map goEnvKey) :=
  createEnvVars_sorted_lastWins ["B=2", "A=1", "B=3"] (by decide)

end GomaExec

/-! ## Claim C6: the embedded-content upload batcher (`uploadInputFiles`) -/

namespace GomaExec

/-- `batchLimit := 500` (exec.go line 300). -/
def batchLimit : Nat := 500

/-- `sizeLimit := 10 * 1024 * 1024` (exec.go line 301). -/
def uploadSizeLimit : Nat := 10 * 1024 * 1024

/-- `len(input.Content.Content)`: the byte size of an input's embedded blob. -/
def inputSize (i : ExecInput) : Nat := (i.content.getD []).length

/-- Accumulated content size of a batch. -/
def sumSize (b : List ExecInput) : Nat := (b.map inputSize).sum

/-- The batching loop of `uploadInputFiles` (exec.go lines 308-353):
`count`/`size` accumulate since the last flush, `cur` is
`inputs[beginOffset:i]`; the loop continues while
`count < batchLimit && size < sizeLimit && i < len(inputs)-1`, otherwise the
slice `inputs[beginOffset : i+1]` becomes a batch. -/
def batchLoop : List ExecInput → Nat → Nat → List ExecInput → List (List ExecInput)
  | [], _, _, _ => []
  | inp :: rest, count, size, cur =>
    if count + 1 < batchLimit ∧ size + inputSize inp < uploadSizeLimit ∧ rest ≠ [] then
      batchLoop rest (count + 1) (size + inputSize inp) (cur ++ [inp])
    else
      (cur ++ [inp]) :: batchLoop rest 0 0 []

/-- The batches `uploadInputFiles` spawns one upload task for each. -/
def uploadBatches (inputs : List ExecInput) : List (List ExecInput) :=
  batchLoop inputs 0 0 []

/-- Every (also non-proper) prefix of the accumulating batch is below both
limits; the invariant the continue-branch maintains. -/
def prefOK (cur : List ExecInput) : Prop :=
  ∀ p : List ExecInput, p <+: cur → p.length < batchLimit ∧ sumSize p < uploadSizeLimit

theorem sumSize_concat (b : List ExecInput) (i : ExecInput) :
    sumSize (b ++ [i]) = sumSize b + inputSize i := by
  simp [sumSize, List.map_append, List.sum_append]

theorem prefOK_nil : prefOK [] := by
  intro p hp
  rw [List.prefix_nil.mp hp]
  constructor <;> simp [sumSize, batchLimit, uploadSizeLimit]

theorem prefOK_concat {cur : List ExecInput} {i : ExecInput} (h : prefOK cur)
    (hlen : cur.length + 1 < batchLimit)
    (hsize : sumSize cur + inputSize i < uploadSizeLimit) :
    prefOK (cur ++ [i]) := by
  intro p hp
  rcases List.prefix_concat_iff.mp hp with rfl | hp'
  · constructor
    · simpa using hlen
    · rw [sumSize_concat]; exact hsize
  · exact h p hp'

theorem batchLoop_flatten : ∀ (l : List ExecInput) (c s : Nat) (cur : List ExecInput),
    (batchLoop l c s cur).flatten = if l = [] then [] else cur ++ l := by
  intro l
  induction l with
  | nil => intro c s cur; simp [batchLoop]
  | cons inp rest ih =>
    intro c s cur
    rw [batchLoop]
    by_cases hcond : (c + 1 < batchLimit ∧ s + inputSize inp < uploadSizeLimit ∧ rest ≠ [])
    · rw [if_pos hcond, ih]
      rw [if_neg hcond.2.2]
      simp
    · rw [if_neg hcond]
      rw [List.flatten_cons, ih]
      by_cases hrest : rest = []
      · simp [hrest]
      · simp [hrest]

theorem batchLoop_batches : ∀ (l : List ExecInput) (cur : List ExecInput),
    prefOK cur →
    (∀ b ∈ batchLoop l cur.length (sumSize cur) cur, b.length ≤ batchLimit ∧
       ∀ p : List ExecInput, p <+: b → p ≠ b →
         p.length < batchLimit ∧ sumSize p < uploadSizeLimit) ∧
    (∀ bs₁ b bs₂, batchLoop l cur.length (sumSize cur) cur = bs₁ ++ b :: bs₂ → bs₂ ≠ [] →
       (b.length = batchLimit ∨ uploadSizeLimit ≤ sumSize b)) := by
  intro l
  induction l with
  | nil =>
    intro cur hcur
    constructor
    · intro b hb; simp [batchLoop] at hb
    · intro bs₁ b bs₂ heq
      rw [batchLoop] at heq
      rcases List.append_eq_nil.mp heq.symm with ⟨_, h2⟩
      exact absurd h2 (List.cons_ne_nil b bs₂)
  | cons inp rest ih =>
    intro cur hcur
    rw [batchLoop]
    have hcurlen : cur.length < batchLimit := (hcur cur (List.prefix_refl cur)).1
    by_cases hcond : (cur.length + 1 < batchLimit ∧
        sumSize cur + inputSize inp < uploadSizeLimit ∧ rest ≠ [])
    · rw [if_pos hcond]
      have hnew : prefOK (cur ++ [inp]) := prefOK_concat hcur hcond.1 hcond.2.1
      have hlen' : (cur ++ [inp]).length = cur.length + 1 := by simp
      have hsum' : sumSize (cur ++ [inp]) = sumSize cur + inputSize inp := sumSize_concat cur inp
      have := ih (cur ++ [inp]) hnew
      rw [hlen', hsum'] at this
      exact this
    · rw [if_neg hcond]
      have hflushlen : (cur ++ [inp]).length ≤ batchLimit := by
        simpa using hcurlen
      have hflushpre : ∀ p : List ExecInput, p <+: cur ++ [inp] → p ≠ cur ++ [inp] →
          p.length < batchLimit ∧ sumSize p < uploadSizeLimit := by
        intro p hp hne
        rcases List.prefix_concat_iff.mp hp with rfl | hp'
        · exact absurd rfl hne
        · exact hcur p hp'
      have hzero : prefOK ([] : List ExecInput) := prefOK_nil
      have ihz := ih [] hzero
      simp only [List.length_nil] at ihz
      have hsumnil : sumSize ([] : List ExecInput) = 0 := rfl
      rw [hsumnil] at ihz
      constructor
      · intro b hb
        rcases List.mem_cons.mp hb with rfl | hb'
        · exact ⟨hflushlen, hflushpre⟩
        · exact ihz.1 b hb'
      · intro bs₁ b bs₂ heq hne
        cases bs₁ with
        | nil =>
          simp only [List.nil_append, List.cons.injEq] at heq
          rcases heq with ⟨rfl, heq2⟩
          have hrest : rest ≠ [] := by
            intro hr
            rw [hr] at heq2
            rw [batchLoop] at heq2
            exact hne heq2.symm
          have hdisj : ¬ (cur.length + 1 < batchLimit) ∨
              ¬ (sumSize cur + inputSize inp < uploadSizeLimit) := by
            by_contra hcontra
            push_neg at hcontra
            exact hcond ⟨hcontra.1, hcontra.2, hrest⟩
          rcases hdisj with hA | hB
          · left
            have h1 : batchLimit ≤ cur.length + 1 := Nat.le_of_not_lt hA
            have h2 : cur.length + 1 ≤ batchLimit := Nat.succ_le_of_lt hcurlen
            have := Nat.le_antisymm h1 h2
            simpa using this.symm
          · right
            rw [sumSize_concat]
            exact Nat.le_of_not_lt hB
        | cons hd tl =>
          simp only [List.cons_append, List.cons.injEq] at heq
          exact ihz.2 tl b bs₂ heq.2 hne

theorem sumSize_replicate_zero {z : ExecInput} (h : inputSize z = 0) (n : Nat) :
    sumSize (List.replicate n z) = 0 := by
  induction n with
  | zero => rfl
  | succ n ih => simp [sumSize, List.replicate_succ, h] at ih ⊢

theorem batchLoop_small : ∀ (l : List ExecInput) (cur : List ExecInput),
    l ≠ [] → cur.length + l.length ≤ batchLimit → sumSize cur + sumSize l < uploadSizeLimit →
    batchLoop l cur.length (sumSize cur) cur = [cur ++ l] := by
  intro l
  induction l with
  | nil => intro cur h; exact absurd rfl h
  | cons inp rest ih =>
    intro cur _ hlen hsize
    rw [batchLoop]
    cases rest with
    | nil =>
      rw [if_neg (by simp)]
      rw [batchLoop]
    | cons r2 rs =>
      have hlinner : sumSize (inp :: r2 :: rs) = inputSize inp + sumSize (r2 :: rs) := by
        simp [sumSize]
      have hlen2 : (inp :: r2 :: rs).length = (r2 :: rs).length + 1 := by simp
      have hcond : (cur.length + 1 < batchLimit ∧
          sumSize cur + inputSize inp < uploadSizeLimit ∧ r2 :: rs ≠ []) := by
        refine ⟨?_, ?_, by simp⟩
        · rw [hlen2] at hlen
          have hpos : 0 < (r2 :: rs).length := by simp
          omega
        · rw [hlinner] at hsize
          have hpos : 0 ≤ sumSize (r2 :: rs) := Nat.zero_le _
          omega
      rw [if_pos hcond]
      have hlen' : (cur ++ [inp]).length = cur.length + 1 := by simp
      have hsum' : sumSize (cur ++ [inp]) = sumSize cur + inputSize inp := sumSize_concat cur inp
      rw [← hlen', ← hsum']
      rw [ih (cur ++ [inp]) (by simp) ?hl ?hs]
      · simp
      case hl =>
        rw [hlen']
        rw [hlen2] at hlen
        omega
      case hs =>
        rw [hsum']
        rw [hlinner] at hsize
        omega


/-- C6: the upload batcher of `uploadInputFiles` partitions the input list
into contiguous batches (their concatenation is the input list); a batch is
closed exactly when it reaches 500 blobs, or its accumulated content size
reaches 10 MiB, or the last input is reached: every batch except the final
one hits one of the two limits, and every proper prefix of any batch is
strictly below both limits; one input alone (in particular one of size at
least 10 MiB) forms a single batch, exactly 500 zero-size inputs form one
batch, and 501 zero-size inputs form at least two batches with no batch
exceeding 500 blobs. -/
theorem uploadBatches_spec (l : List ExecInput) :
    ((uploadBatches l).flatten = l) ∧
    (∀ b ∈ uploadBatches l, b.length ≤ batchLimit ∧
       ∀ p : List ExecInput, p <+: b → p ≠ b →
         p.length < batchLimit ∧ sumSize p < uploadSizeLimit) ∧
    (∀ bs₁ b bs₂, uploadBatches l = bs₁ ++ b :: bs₂ → bs₂ ≠ [] →
       (b.length = batchLimit ∨ uploadSizeLimit ≤ sumSize b)) ∧
    (∀ inp : ExecInput, uploadBatches [inp] = [[inp]]) ∧
    (∀ z : ExecInput, inputSize z = 0 →
       uploadBatches (List.replicate batchLimit z) = [List.replicate batchLimit z] ∧
       2 ≤ (uploadBatches (List.replicate (batchLimit + 1) z)).length ∧
       ∀ b ∈ uploadBatches (List.replicate (batchLimit + 1) z), b.length ≤ batchLimit) := by
  have hsumnil : sumSize ([] : List ExecInput) = 0 := rfl
  have hmain := batchLoop_batches l [] prefOK_nil
  simp only [List.length_nil] at hmain
  rw [hsumnil] at hmain
  refine ⟨?_, hmain.1, hmain.2, ?_, ?_⟩
  · rw [uploadBatches, batchLoop_flatten]
    by_cases hl : l = []
    · simp [hl]
    · simp [hl]
  · intro inp
    rw [uploadBatches, batchLoop]
    rw [if_neg (by simp)]
    rw [batchLoop]
    simp
  · intro z hz
    have hrepl : ∀ n : Nat, n ≠ 0 → List.replicate n z ≠ ([] : List ExecInput) := by
      intro n hn he
      have := congrArg List.length he
      rw [List.length_replicate] at this
      simp only [List.length_nil] at this
      exact hn this
    have hne500 : List.replicate batchLimit z ≠ [] := hrepl batchLimit (by decide)
    have h500 : uploadBatches (List.replicate batchLimit z) = [List.replicate batchLimit z] := by
      have hs := batchLoop_small (List.replicate batchLimit z) [] hne500
        (by simp)
        (by rw [hsumnil, sumSize_replicate_zero hz]; simp [uploadSizeLimit])
      simpa using hs
    have hmainL := batchLoop_batches (List.replicate (batchLimit + 1) z) [] prefOK_nil
    simp only [List.length_nil] at hmainL
    rw [hsumnil] at hmainL
    have hlenb : ∀ b ∈ uploadBatches (List.replicate (batchLimit + 1) z),
        b.length ≤ batchLimit := fun b hb => (hmainL.1 b hb).1
    refine ⟨h500, ?_, hlenb⟩
    have hflat : (uploadBatches (List.replicate (batchLimit + 1) z)).flatten =
        List.replicate (batchLimit + 1) z := by
      rw [uploadBatches, batchLoop_flatten]
      rw [if_neg (hrepl (batchLimit + 1) (by decide))]
      simp
    cases hb : uploadBatches (List.replicate (batchLimit + 1) z) with
    | nil =>
      rw [hb] at hflat
      exact absurd hflat.symm (hrepl (batchLimit + 1) (by decide))
    | cons b t =>
      cases t with
      | nil =>
        rw [hb] at hflat
        simp only [List.flatten_cons, List.flatten_nil, List.append_nil] at hflat
        have hble : b.length ≤ batchLimit := by
          apply hlenb
          rw [hb]
          exact List.mem_cons_self b []
        rw [hflat, List.length_replicate] at hble
        omega
      | cons b2 t2 => simp

/-- Witness for C6: evaluate the batcher facts at 501 zero-size inputs. -/
theorem uploadBatches_spec_witness :
    2 ≤ (uploadBatches (List.replicate (batchLimit + 1)
      ({ filename := "z", content := some [] } : ExecInput))).length :=
  ((uploadBatches_spec []).2.2.2.2 ({ filename := "z", content := some [] } : ExecInput)
    rfl).2.1

end GomaExec

/-! ## Claim C2: hash-key checking in `uploadInputFiles`, and the dropped error -/

namespace GomaExec

instance : Inhabited ExecInput := ⟨⟨"", none, ""⟩⟩

/-- The errors a `uploadInputFiles` batch task can return
(exec.go lines 335-347). -/
inductive UploadErr
  | serviceError (filename : String) (msg : String)
  | badHashKeyCount (got want : Nat)
  | hashKeyMismatch (filename declared got : String)
deriving DecidableEq

/-- The hash-key validation of one batch task (exec.go lines 338-347):
the returned key list must have the batch's length, and each key must equal
the corresponding input's declared hash key; the first violation aborts. -/
def checkBatchKeys (batch : List ExecInput) (hks : List String) : Option UploadErr :=
  if hks.length ≠ batch.length then some (UploadErr.badHashKeyCount hks.length batch.length)
  else
    (batch.zip hks).findSome? (fun ih =>
      if ih.1.hashKey ≠ ih.2 then
        some (UploadErr.hashKeyMismatch ih.1.filename ih.1.hashKey ih.2)
      else none)

/-- `uploadInputFiles` (exec.go lines 294-386), with the external file
service abstracted as `upload`.  Each batch's task uploads the batch's
contents and validates the returned keys; the tasks share an error group, so
the function's result is an error produced by some failing batch (the error
group's first-by-time choice is embedded as first-by-batch-order), or `nil`
when every batch succeeds. -/
def uploadInputFiles (upload : List (List Nat) → Except String (List String))
    (inputs : List ExecInput) : Option UploadErr :=
  (uploadBatches inputs).findSome? (fun batch =>
    match upload (batch.map (fun i => i.content.getD [])) with
    | Except.error e => some (UploadErr.serviceError (batch.headI).filename e)
    | Except.ok hks => checkBatchKeys batch hks)

/-- The final step of `request.newInputTree` (exec.go lines 690-699):
`err = uploadInputFiles(ctx, uploads, r.input)` followed only by a log line —
the error is not stored in `r.err` and the function returns `nil`
("so we could ignore error of these uploads").  Returns (the logged upload
error, the request's error field after the step, the returned response). -/
def newInputTreeUploadStep (reqErr : Option UploadErr)
    (upload : List (List Nat) → Except String (List String))
    (uploads : List ExecInput) :
    Option UploadErr × Option UploadErr × Option ExecResp :=
  (uploadInputFiles upload uploads, reqErr, none)

theorem checkBatchKeys_eq_none (batch : List ExecInput) (hks : List String) :
    checkBatchKeys batch hks = none ↔
      (hks.length = batch.length ∧ ∀ p ∈ batch.zip hks, p.1.hashKey = p.2) := by
  unfold checkBatchKeys
  by_cases hlen : hks.length = batch.length
  · rw [if_neg (by simp [hlen])]
    rw [List.findSome?_eq_none_iff]
    constructor
    · intro h
      refine ⟨hlen, fun p hp => ?_⟩
      have := h p hp
      by_cases hk : p.1.hashKey = p.2
      · exact hk
      · rw [if_pos hk] at this
        exact Option.noConfusion this
    · intro h p hp
      rw [if_neg (by simp [h.2 p hp])]
  · rw [if_pos hlen]
    simp [hlen]

/-- C2 (corrected): a batch task of `uploadInputFiles` does fail whenever the
file service returns a key list of the wrong length or any key differing from
the input's declared hash key — `uploadInputFiles` returns `nil` exactly when
every batch's upload succeeds with matching keys — but `newInputTree`
deliberately discards that error: the request's error field is unchanged and
no error response is produced, whatever the upload outcome. -/
theorem uploadInputFiles_mismatch_ignored :
    (∀ (batch : List ExecInput) (hks : List String),
      checkBatchKeys batch hks = none ↔
        (hks.length = batch.length ∧ ∀ p ∈ batch.zip hks, p.1.hashKey = p.2)) ∧
    (∀ (upload : List (List Nat) → Except String (List String)) (inputs : List ExecInput),
      uploadInputFiles upload inputs = none ↔
        ∀ batch ∈ uploadBatches inputs, ∃ hks,
          upload (batch.map (fun i => i.content.getD [])) = Except.ok hks ∧
          hks.length = batch.length ∧ ∀ p ∈ batch.zip hks, p.1.hashKey = p.2) ∧
    (∀ (reqErr : Option UploadErr) (upload : List (List Nat) → Except String (List String))
        (uploads : List ExecInput),
      (newInputTreeUploadStep reqErr upload uploads).2.1 = reqErr ∧
      (newInputTreeUploadStep reqErr upload uploads).2.2 = none ∧
      (newInputTreeUploadStep reqErr upload uploads).1 = uploadInputFiles upload uploads) := by
  refine ⟨checkBatchKeys_eq_none, ?_, ?_⟩
  · intro upload inputs
    unfold uploadInputFiles
    rw [List.findSome?_eq_none_iff]
    constructor
    · intro h batch hb
      have := h batch hb
      cases hup : upload (batch.map (fun i => i.content.getD [])) with
      | error e =>
        rw [hup] at this
        exact Option.noConfusion this
      | ok hks =>
        rw [hup] at this
        exact ⟨hks, rfl, (checkBatchKeys_eq_none batch hks).mp this⟩
    · intro h batch hb
      rcases h batch hb with ⟨hks, hup, hrest⟩
      rw [hup]
      exact (checkBatchKeys_eq_none batch hks).mpr hrest
  · intro reqErr upload uploads
    exact ⟨rfl, rfl, rfl⟩

/-- Witness for C2's amended theorem at a concrete input. -/
theorem uploadInputFiles_mismatch_ignored_witness :
    (newInputTreeUploadStep none (fun _ => Except.ok ["k1"])
      [{ filename := "a.c", content := some [1], hashKey := "k1" }]).2.1 = none ∧
    checkBatchKeys [{ filename := "a.c", content := some [1], hashKey := "k1" }] ["k1"] =
      none :=
  ⟨(uploadInputFiles_mismatch_ignored.2.2 none (fun _ => Except.ok ["k1"])
      [{ filename := "a.c", content := some [1], hashKey := "k1" }]).1,
    (uploadInputFiles_mismatch_ignored.1
      [{ filename := "a.c", content := some [1], hashKey := "k1" }] ["k1"]).mpr (by decide)⟩

/-- C2 counterexample: the file service answers a one-blob batch with a
different hash key; `uploadInputFiles` reports the mismatch, yet the
`newInputTree` upload step leaves the request's error field `nil` and returns
no error response — the request proceeds as if the upload succeeded, so the
mismatch is not fatal. -/
theorem uploadMismatch_not_fatal_cex :
    uploadInputFiles (fun _ => Except.ok ["k2"])
      [{ filename := "a.c", content := some [1, 2], hashKey := "k1" }] =
      some (UploadErr.hashKeyMismatch "a.c" "k1" "k2") ∧
    (newInputTreeUploadStep none (fun _ => Except.ok ["k2"])
      [{ filename := "a.c", content := some [1, 2], hashKey := "k1" }]).2.1 = none ∧
    (newInputTreeUploadStep none (fun _ => Except.ok ["k2"])
      [{ filename := "a.c", content := some [1, 2], hashKey := "k1" }]).2.2 = none :=
  ⟨by decide, rfl, rfl⟩

end GomaExec

/-! ## Claims C1 and C5: `thinOutMissing` and `sortMissing` -/

namespace GomaExec

/-- `missingInputLimit = 100` (exec.go line 1354). -/
def missingInputLimit : Nat := 100

/-- `thinOutMissing` (exec.go lines 1358-1366).  `rand.Shuffle`'s swap
callback exchanges only `resp.MissingInput[i]` and `resp.MissingInput[j]` —
`MissingReason` is neither permuted nor truncated.  The random permutation is
the parameter `shuffled` (theorems assume `shuffled` is a permutation of
`resp.missingInput`); the truncation `resp.MissingInput[:limit]` is the
`take`. -/
def thinOutMissing (shuffled : List String) (resp : ExecResp) (limit : Nat) : ExecResp :=
  if resp.missingInput.length < limit then resp
  else { resp with missingInput := shuffled.take limit }

/-- The order map of `sortMissing` (exec.go lines 1343-1346):
`m[input.GetFilename()] = i` for each input in order (last occurrence wins),
with the Go zero value `0` for absent names. -/
def orderIdx (inputs : List ExecInput) (name : String) : Nat :=
  (inputs.map (fun i => i.filename)).enum.foldl
    (fun acc p => if p.2 = name then p.1 else acc) 0

/-- The comparison `byInputFilenames.Less` lifted to (file, reason) pairs. -/
def pairLE (inputs : List ExecInput) (a b : String × String) : Prop :=
  orderIdx inputs a.1 ≤ orderIdx inputs b.1

instance (inputs : List ExecInput) : DecidableRel (pairLE inputs) :=
  fun a b => Nat.decLe _ _

instance (inputs : List ExecInput) : IsTotal (String × String) (pairLE inputs) :=
  ⟨fun a b => Nat.le_total _ _⟩

instance (inputs : List ExecInput) : IsTrans (String × String) (pairLE inputs) :=
  ⟨fun _ _ _ hab hbc => Nat.le_trans hab hbc⟩

/-- `sortMissing` (exec.go lines 1342-1351).  Go's `sort.Sort` applies one
swap sequence, over indices below `Len() = len(resp.MissingInput)`, to both
`MissingInput` and `MissingReason`; it is embedded canonically as a stable
sort of the zipped first `len(MissingInput)` pairs, with the untouched tail
of `MissingReason` appended.  Theorems that assert an exact output order
assume strictly increasing keys, on which every correct sort agrees. -/
def sortMissing (inputs : List ExecInput) (resp : ExecResp) : ExecResp :=
  { resp with
      missingInput :=
        (List.insertionSort (pairLE inputs)
          (resp.missingInput.zip (resp.missingReason.take resp.missingInput.length))).map
          (fun p => p.1),
      missingReason :=
        (List.insertionSort (pairLE inputs)
          (resp.missingInput.zip (resp.missingReason.take resp.missingInput.length))).map
          (fun p => p.2) ++ resp.missingReason.drop resp.missingInput.length }

end GomaExec

namespace GomaExec

/-- C5: for a missing list strictly larger than 100 (with reasons recorded in
parallel), `thinOutMissing` then `sortMissing` yields exactly 100
`MissingInput` entries, each present in the original list, ordered by the
client's original input order; and on fewer than 100 entries already in
client order (strictly increasing order keys), both functions leave the
response unchanged. -/
theorem thinOut_sortMissing_spec (inputs : List ExecInput) (resp : ExecResp)
    (shuffled : List String) :
    (shuffled.Perm resp.missingInput →
      resp.missingReason.length = resp.missingInput.length →
      missingInputLimit < resp.missingInput.length →
      (sortMissing inputs (thinOutMissing shuffled resp missingInputLimit)).missingInput.length
          = missingInputLimit ∧
      (∀ f ∈ (sortMissing inputs
          (thinOutMissing shuffled resp missingInputLimit)).missingInput,
        f ∈ resp.missingInput) ∧
      ((sortMissing inputs (thinOutMissing shuffled resp missingInputLimit)).missingInput.map
          (orderIdx inputs)).Pairwise (· ≤ ·)) ∧
    (resp.missingInput.length < missingInputLimit →
      resp.missingInput.length ≤ resp.missingReason.length →
      ((resp.missingInput.map (orderIdx inputs)).Pairwise (· < ·)) →
      thinOutMissing shuffled resp missingInputLimit = resp ∧
      sortMissing inputs resp = resp) := by
  constructor
  · intro hperm hlen hgt
    have hnotlt : ¬ resp.missingInput.length < missingInputLimit :=
      Nat.not_lt.mpr (Nat.le_of_lt hgt)
    have hshuflen : shuffled.length = resp.missingInput.length := hperm.length_eq
    simp only [thinOutMissing, if_neg hnotlt, sortMissing]
    have htakelen : (shuffled.take missingInputLimit).length = missingInputLimit := by
      rw [List.length_take]
      omega
    have hrtakelen :
        (resp.missingReason.take (shuffled.take missingInputLimit).length).length
          = missingInputLimit := by
      rw [List.length_take, htakelen]
      omega
    have hziplen : ((shuffled.take missingInputLimit).zip
        (resp.missingReason.take (shuffled.take missingInputLimit).length)).length
          = missingInputLimit := by
      rw [List.length_zip, htakelen, List.length_take]
      omega
    have hps := List.perm_insertionSort (pairLE inputs)
      ((shuffled.take missingInputLimit).zip
        (resp.missingReason.take (shuffled.take missingInputLimit).length))
    refine ⟨?_, ?_, ?_⟩
    · rw [List.length_map, hps.length_eq, hziplen]
    · intro f hf
      rcases List.mem_map.mp hf with ⟨p, hp, rfl⟩
      have hp2 : p ∈ (shuffled.take missingInputLimit).zip
          (resp.missingReason.take (shuffled.take missingInputLimit).length) :=
        hps.mem_iff.mp hp
      rcases p with ⟨a, b⟩
      have := (List.of_mem_zip hp2).1
      exact hperm.subset ((List.take_sublist _ _).subset this)
    · have hsorted := List.sorted_insertionSort (pairLE inputs)
        ((shuffled.take missingInputLimit).zip
          (resp.missingReason.take (shuffled.take missingInputLimit).length))
      rw [List.map_map, List.pairwise_map]
      exact List.Pairwise.imp (fun h => h) hsorted
  · intro hlt hle hstrict
    constructor
    · simp only [thinOutMissing]
      rw [if_pos hlt]
    · have hrtakelen : (resp.missingReason.take resp.missingInput.length).length
          = resp.missingInput.length := by
        rw [List.length_take]
        omega
      have hmapfst : (resp.missingInput.zip
          (resp.missingReason.take resp.missingInput.length)).map Prod.fst
            = resp.missingInput :=
        List.map_fst_zip _ _ (by rw [hrtakelen])
      have hpairs_sorted : List.Sorted (pairLE inputs)
          (resp.missingInput.zip (resp.missingReason.take resp.missingInput.length)) := by
        have h1 : ((resp.missingInput.zip
            (resp.missingReason.take resp.missingInput.length)).map Prod.fst).Pairwise
              (fun a b => orderIdx inputs a < orderIdx inputs b) := by
          rw [hmapfst]
          rw [List.pairwise_map] at hstrict
          exact hstrict
        rw [List.pairwise_map] at h1
        exact h1.imp (fun h => Nat.le_of_lt h)
      have hsorteq := hpairs_sorted.insertionSort_eq
      simp only [sortMissing, hsorteq]
      have hfst : (resp.missingInput.zip
          (resp.missingReason.take resp.missingInput.length)).map (fun p => p.1)
            = resp.missingInput := hmapfst
      have hsnd : (resp.missingInput.zip
          (resp.missingReason.take resp.missingInput.length)).map (fun p => p.2)
            = resp.missingReason.take resp.missingInput.length :=
        List.map_snd_zip _ _ (by rw [hrtakelen])
      rw [hfst, hsnd, List.take_append_drop]

/-- Witness for C5: a three-entry missing list in client order is preserved. -/
theorem thinOut_sortMissing_spec_witness :
    thinOutMissing ["a", "b", "c"]
        ({ missingInput := ["a", "b", "c"], missingReason := ["ra", "rb", "rc"] } : ExecResp)
        missingInputLimit =
      ({ missingInput := ["a", "b", "c"], missingReason := ["ra", "rb", "rc"] } : ExecResp) ∧
    sortMissing [⟨"a", none, ""⟩, ⟨"b", none, ""⟩, ⟨"c", none, ""⟩]
        ({ missingInput := ["a", "b", "c"], missingReason := ["ra", "rb", "rc"] } : ExecResp) =
      ({ missingInput := ["a", "b", "c"], missingReason := ["ra", "rb", "rc"] } : ExecResp) :=
  (thinOut_sortMissing_spec [⟨"a", none, ""⟩, ⟨"b", none, ""⟩, ⟨"c", none, ""⟩]
      ({ missingInput := ["a", "b", "c"], missingReason := ["ra", "rb", "rc"] } : ExecResp)
      ["a", "b", "c"]).2 (by decide) (by decide) (by decide)

end GomaExec

namespace GomaExec

/-- C1 (code bug): when more than 100 missing inputs are reported,
`thinOutMissing` shuffles and truncates only `MissingInput`, leaving
`MissingReason` at its full length, and `sortMissing` preserves both lengths;
the response's two arrays therefore end up with different lengths
(100 versus the original count), so `MissingReason[i]` can no longer be the
reason recorded for `MissingInput[i]`, whatever permutation the shuffle
produced. -/
theorem thinOut_breaks_missing_pairing (inputs : List ExecInput) (resp : ExecResp)
    (shuffled : List String)
    (hperm : shuffled.Perm resp.missingInput)
    (hlen : resp.missingReason.length = resp.missingInput.length)
    (hgt : missingInputLimit < resp.missingInput.length) :
    (sortMissing inputs (thinOutMissing shuffled resp missingInputLimit)).missingInput.length
        = missingInputLimit ∧
    (sortMissing inputs (thinOutMissing shuffled resp missingInputLimit)).missingReason.length
        = resp.missingInput.length ∧
    missingInputLimit ≠ resp.missingInput.length := by
  have hnotlt : ¬ resp.missingInput.length < missingInputLimit :=
    Nat.not_lt.mpr (Nat.le_of_lt hgt)
  have hshuflen : shuffled.length = resp.missingInput.length := hperm.length_eq
  simp only [thinOutMissing, if_neg hnotlt, sortMissing]
  have htakelen : (shuffled.take missingInputLimit).length = missingInputLimit := by
    rw [List.length_take]
    omega
  have hziplen : ((shuffled.take missingInputLimit).zip
      (resp.missingReason.take (shuffled.take missingInputLimit).length)).length
        = missingInputLimit := by
    rw [List.length_zip, htakelen, List.length_take]
    omega
  have hps := List.perm_insertionSort (pairLE inputs)
    ((shuffled.take missingInputLimit).zip
      (resp.missingReason.take (shuffled.take missingInputLimit).length))
  refine ⟨?_, ?_, ?_⟩
  · rw [List.length_map, hps.length_eq, hziplen]
  · rw [List.length_append, List.length_map, hps.length_eq, hziplen,
      List.length_drop, htakelen]
    omega
  · omega

/-- Witness for C1 at the failing input: 101 missing entries with their 101
reasons; after `thinOutMissing` + `sortMissing` the response carries 100
`MissingInput` entries but still 101 `MissingReason` entries. -/
theorem thinOut_breaks_missing_pairing_witness :
    (sortMissing [] (thinOutMissing
        (((List.range 101).map (fun i => "f" ++ toString i)))
        ({ missingInput := (List.range 101).map (fun i => "f" ++ toString i),
           missingReason := (List.range 101).map (fun i => "r" ++ toString i) } : ExecResp)
        missingInputLimit)).missingInput.length = missingInputLimit ∧
    (sortMissing [] (thinOutMissing
        (((List.range 101).map (fun i => "f" ++ toString i)))
        ({ missingInput := (List.range 101).map (fun i => "f" ++ toString i),
           missingReason := (List.range 101).map (fun i => "r" ++ toString i) } : ExecResp)
        missingInputLimit)).missingReason.length =
      ({ missingInput := (List.range 101).map (fun i => "f" ++ toString i),
         missingReason := (List.range 101).map (fun i => "r" ++ toString i) } :
          ExecResp).missingInput.length ∧
    missingInputLimit ≠
      ({ missingInput := (List.range 101).map (fun i => "f" ++ toString i),
         missingReason := (List.range 101).map (fun i => "r" ++ toString i) } :
          ExecResp).missingInput.length :=
  thinOut_breaks_missing_pairing []
    ({ missingInput := (List.range 101).map (fun i => "f" ++ toString i),
       missingReason := (List.range 101).map (fun i => "r" ++ toString i) } : ExecResp)
    ((List.range 101).map (fun i => "f" ++ toString i))
    (List.Perm.refl _)
    (by simp)
    (by simp [missingInputLimit])

end GomaExec

/-! ## Claims C3 and C4: wrapper-strategy selection and the first argv element -/

namespace GomaExec

/-- The path algebra in use (`posixpath.FilePath` / `winpath.FilePath`). -/
inductive PathKind
  | posix
  | windows
deriving DecidableEq

/-- `wrapperType` (exec.go lines 702-710). -/
inductive WrapperType
  | relocatable
  | inputRootAbsolutePath
  | nsjailChroot
  | win
  | winInputRootAbsolutePath
deriving DecidableEq

/-- The strategy selection of `request.newWrapperScript`
(exec.go lines 780-817): POSIX picks nsjail-chroot when `needChroot`, else
relocatable/input-root-absolute by the relocatability verdict
(`relocatable = (relocatableReq(...) == nil)`); Windows picks win /
win-input-root-absolute likewise, and `windows_cross` then downgrades the two
Windows strategies to their POSIX equivalents. -/
def chooseWrapperType (pk : PathKind) (needChroot relocatable windowsCross : Bool) :
    WrapperType :=
  match pk with
  | PathKind.posix =>
    if needChroot then WrapperType.nsjailChroot
    else if relocatable then WrapperType.relocatable
    else WrapperType.inputRootAbsolutePath
  | PathKind.windows =>
    let wt := if relocatable then WrapperType.win else WrapperType.winInputRootAbsolutePath
    if windowsCross then
      match wt with
      | WrapperType.winInputRootAbsolutePath => WrapperType.inputRootAbsolutePath
      | WrapperType.win => WrapperType.relocatable
      | w => w
    else wt

/-- `strings.HasPrefix(strings.ToUpper(rootDir), "C:\\")` (exec.go line 900). -/
def rootDirOnCDrive (rootDir : String) : Bool :=
  List.isPrefixOf "C:\\".toList (goToUpper rootDir).toList

/-- Whether `request.newWrapperScript` returns a `badRequestError`
(exec.go lines 898-905): only the `wrapperWinInputRootAbsolutePath` branch
checks `relocatableErr != nil && !HasPrefix(ToUpper(rootDir), "C:\\")`. -/
def newWrapperBadRequest (pk : PathKind) (needChroot relocatable windowsCross : Bool)
    (rootDir : String) : Bool :=
  match chooseWrapperType pk needChroot relocatable windowsCross with
  | WrapperType.winInputRootAbsolutePath => !relocatable && !(rootDirOnCDrive rootDir)
  | _ => false

/-- C3 counterexample: a `windows_cross=true` non-relocatable request whose
root is on the `D:` drive is NOT rejected — the Windows strategy is
downgraded to `wrapperInputRootAbsolutePath` before the `C:`-drive check,
which sits only in the `wrapperWinInputRootAbsolutePath` branch, so no
bad-request error is produced. -/
theorem windowsCross_noCDrive_not_rejected_cex :
    chooseWrapperType PathKind.windows false false true = WrapperType.inputRootAbsolutePath ∧
    newWrapperBadRequest PathKind.windows false false true "D:\\work" = false ∧
    rootDirOnCDrive "D:\\work" = false := by
  refine ⟨rfl, rfl, by decide⟩

/-- C3 (corrected): the `C:`-drive rejection applies exactly to non-cross
(`windows_cross=false`) Windows-path-type non-relocatable requests whose root
does not start with `C:\`; with `windows_cross=true` the Windows strategies
are downgraded to their POSIX equivalents, and no request — relocatable or
not, any root — is rejected by this check. -/
theorem cDriveCheck_only_native_windows :
    (∀ (needChroot : Bool) (rootDir : String),
      newWrapperBadRequest PathKind.windows needChroot false false rootDir = true ↔
        rootDirOnCDrive rootDir = false) ∧
    (∀ (needChroot relocatable : Bool) (rootDir : String),
      newWrapperBadRequest PathKind.windows needChroot relocatable true rootDir = false) ∧
    (∀ needChroot : Bool, chooseWrapperType PathKind.windows needChroot false true
        = WrapperType.inputRootAbsolutePath) ∧
    (∀ needChroot : Bool, chooseWrapperType PathKind.windows needChroot true true
        = WrapperType.relocatable) ∧
    (∀ (pk : PathKind) (needChroot windowsCross : Bool) (rootDir : String),
      newWrapperBadRequest pk needChroot true windowsCross rootDir = false) := by
  refine ⟨?_, ?_, ?_, ?_, ?_⟩
  · intro needChroot rootDir
    simp [newWrapperBadRequest, chooseWrapperType]
  · intro needChroot relocatable rootDir
    cases relocatable <;> simp [newWrapperBadRequest, chooseWrapperType]
  · intro needChroot; rfl
  · intro needChroot; rfl
  · intro pk needChroot windowsCross rootDir
    cases pk <;> cases needChroot <;> cases windowsCross <;>
      simp [newWrapperBadRequest, chooseWrapperType]

/-- Witness for C3's amended theorem at a concrete non-`C:` root. -/
theorem cDriveCheck_only_native_windows_witness :
    newWrapperBadRequest PathKind.windows false false false "d:\\out" = true :=
  (cDriveCheck_only_native_windows.1 false "d:\\out").mpr (by decide)

end GomaExec

namespace GomaExec

/-- `posixWrapperName = "run.sh"` (exec.go line 819). -/
def posixWrapperName : String := "run.sh"

/-- Modelled from the spec: `wrapperForWindows` is not under src/; per the
spec's wrapper table the Windows strategies' script is the opaque `run.exe`,
so the entry written at index 0 of the wrapper files carries this name. -/
def winWrapperName : String := "run.exe"

/-- The name of `files[0]` per strategy (exec.go lines 820-932: nsjail,
input-root-absolute and relocatable write `posixWrapperName` first — the
hardening variant only appends after it — and the two win strategies write
the name returned by `wrapperForWindows`). -/
def wrapperFirstFileName : WrapperType → String
  | WrapperType.nsjailChroot => posixWrapperName
  | WrapperType.relocatable => posixWrapperName
  | WrapperType.inputRootAbsolutePath => posixWrapperName
  | WrapperType.win => winWrapperName
  | WrapperType.winInputRootAbsolutePath => winWrapperName

/-- Drop a leading drive letter (`X:`). -/
def stripDrive : List Char → List Char
  | c1 :: c2 :: rest => if c2 = ':' then rest else c1 :: c2 :: rest
  | l => l

/-- Modelled from the spec: `winpath.ToPosix` (not under src/) strips the
drive letter and flips separators. -/
def winToPosix (s : String) : String :=
  String.mk ((stripDrive s.toList).map (fun ch => if ch = '\\' then '/' else ch))

/-- Join path components with the separator (the root-relative string a path
algebra's `Rel` emits). -/
def joinSep (sep : Char) : List String → String
  | [] => ""
  | [x] => x
  | x :: y :: ys => x ++ String.mk [sep] ++ joinSep sep (y :: ys)

/-- Modelled from the spec: a path for `rootRel`, a root marker (`"/"`,
`"C:\\"`, or `""` for relative paths) plus clean components. -/
structure MPath where
  root : String
  comps : List String
deriving DecidableEq

/-- Modelled from the spec: `Join(cwd, name)` when `name` is relative. -/
def mJoin (cwd q : MPath) : MPath :=
  if q.root = "" then ⟨cwd.root, cwd.comps ++ q.comps⟩ else q

/-- Modelled from the spec: `rootRel` (not under src/) joins a relative
filename with the working directory and returns its path relative to the
root, or `none` (`errOutOfRoot`) when the path is not under the root. -/
def rootRel (cwd rootDir : MPath) (name : MPath) (sep : Char) : Option String :=
  let a := mJoin cwd name
  if a.root = rootDir.root ∧ rootDir.comps <+: a.comps then
    some (joinSep sep (a.comps.drop rootDir.comps.length))
  else none

/-- The argv head constructed by `request.newWrapperScript`
(exec.go lines 953-962): `"./"` is prepended exactly when the root-relative
wrapper path equals `posixWrapperName`, and `windows_cross` then converts the
result with `winpath.ToPosix`; `request.newCommand` (line 1230) stores
`r.args` unchanged as `Command.Arguments`, so this is the command's first
argument. -/
def firstArg (windowsCross : Bool) (wrapperPath : String) : String :=
  let wp := if wrapperPath = posixWrapperName then "./" ++ posixWrapperName else wrapperPath
  if windowsCross then winToPosix wp else wp

theorem goStartsWith_dotSlash (s : String) :
    goStartsWith s "./" = true ↔ ∃ t, s.toList = '.' :: '/' :: t := by
  have hpat : ("./" : String).toList = '.' :: '/' :: [] := rfl
  unfold goStartsWith
  rw [hpat]
  constructor
  · intro h
    cases hl : s.toList with
    | nil => rw [hl] at h; simp [List.isPrefixOf] at h
    | cons c1 t1 =>
      cases t1 with
      | nil => rw [hl] at h; simp [List.isPrefixOf] at h
      | cons c2 t2 =>
        rw [hl] at h
        simp only [List.isPrefixOf, Bool.and_eq_true, beq_iff_eq] at h
        exact ⟨t2, by rw [← h.1, ← h.2.1]⟩
  · rintro ⟨t, ht⟩
    rw [ht]
    simp [List.isPrefixOf]

/-- C4 counterexample: a relocatable native-Windows request whose working
directory is the input root reaches command assembly through the `wrapperWin`
strategy; its wrapper's root-relative path is `run.exe`, which contains no
directory separator, yet the first argv element gets no `./` prefix (the code
prepends `./` only to the exact name `run.sh`), refuting the claimed
equivalence. -/
theorem winWrapper_no_dot_slash_cex :
    chooseWrapperType PathKind.windows false true false = WrapperType.win ∧
    rootRel ⟨"C:\\", ["work"]⟩ ⟨"C:\\", ["work"]⟩
        ⟨"", [wrapperFirstFileName WrapperType.win]⟩ '\\' = some "run.exe" ∧
    firstArg false "run.exe" = "run.exe" ∧
    ('/' ∉ ("run.exe" : String).toList ∧ '\\' ∉ ("run.exe" : String).toList) ∧
    goStartsWith (firstArg false "run.exe") "./" = false := by
  refine ⟨rfl, by decide, rfl, by decide, by decide⟩

end GomaExec

namespace GomaExec

theorem toList_mk (l : List Char) : (String.mk l).toList = l := rfl

theorem toList_append_str (a b : String) : (a ++ b).toList = a.toList ++ b.toList := by
  simp

/-- C4 (amended): the first argv element is the wrapper's root-relative path,
with `./` prepended exactly when that path equals the POSIX wrapper name
`run.sh`; for the strategies whose wrapper is `run.sh` — whose root-relative
path is the separator-joined component list `wd ++ [run.sh]` — this
coincides with "contains no directory separator" (equivalently, the wrapper
lives in the root directory, `wd = []`); the equivalence does not extend to
the `run.exe` wrapper of the native-Windows strategies. -/
theorem firstArg_dotSlash_rule (wd : List String) (sep : Char) (cross : Bool)
    (hsep : sep = '/' ∨ sep = '\\')
    (hwd : ∀ c ∈ wd, c ≠ "" ∧ c ≠ "." ∧ '/' ∉ c.toList ∧ '\\' ∉ c.toList ∧ ':' ∉ c.toList) :
    (goStartsWith (firstArg cross (joinSep sep (wd ++ [posixWrapperName]))) "./" = true ↔
      joinSep sep (wd ++ [posixWrapperName]) = posixWrapperName) ∧
    (joinSep sep (wd ++ [posixWrapperName]) = posixWrapperName ↔
      ('/' ∉ (joinSep sep (wd ++ [posixWrapperName])).toList ∧
       '\\' ∉ (joinSep sep (wd ++ [posixWrapperName])).toList)) ∧
    (joinSep sep (wd ++ [posixWrapperName]) = posixWrapperName ↔ wd = []) := by
  cases wd with
  | nil =>
    have hwp : joinSep sep ([] ++ [posixWrapperName]) = posixWrapperName := rfl
    rw [hwp]
    cases cross <;> exact ⟨by decide, by decide, by decide⟩
  | cons c rest =>
    obtain ⟨hcne, hcdot, hcslash, hcback, hccolon⟩ := hwd c (List.mem_cons_self c rest)
    obtain ⟨y, ys, hys⟩ : ∃ y ys, rest ++ [posixWrapperName] = y :: ys := by
      cases hr : rest ++ [posixWrapperName] with
      | nil => exact absurd hr (by simp)
      | cons y ys => exact ⟨y, ys, rfl⟩
    have hwp : joinSep sep ((c :: rest) ++ [posixWrapperName]) =
        c ++ String.mk [sep] ++ joinSep sep (y :: ys) := by
      show joinSep sep (c :: (rest ++ [posixWrapperName])) = _
      rw [hys]
      rfl
    have hchars : (joinSep sep ((c :: rest) ++ [posixWrapperName])).toList
        = c.toList ++ sep :: (joinSep sep (y :: ys)).toList := by
      rw [hwp, toList_append_str, toList_append_str, toList_mk, List.append_assoc]
      rfl
    obtain ⟨c1, ct, hct⟩ : ∃ c1 ct, c.toList = c1 :: ct := by
      cases hc0 : c.toList with
      | nil => exact absurd (String.ext hc0) hcne
      | cons c1 ct => exact ⟨c1, ct, rfl⟩
    have hsepmem : sep ∈ (joinSep sep ((c :: rest) ++ [posixWrapperName])).toList := by
      rw [hchars]
      exact List.mem_append.mpr (Or.inr (List.mem_cons_self _ _))
    have hne : joinSep sep ((c :: rest) ++ [posixWrapperName]) ≠ posixWrapperName := by
      intro he
      rw [he] at hsepmem
      rcases hsep with rfl | rfl <;> revert hsepmem <;> decide
    have hc1mem : c1 ∈ c.toList := by rw [hct]; exact List.mem_cons_self _ _
    have hA : ¬ ∃ t, (joinSep sep ((c :: rest) ++ [posixWrapperName])).toList
        = '.' :: '/' :: t := by
      rintro ⟨t, ht⟩
      rw [hchars, hct] at ht
      simp only [List.cons_append, List.cons.injEq] at ht
      obtain ⟨hdot1, htail⟩ := ht
      cases ct with
      | nil =>
        have hcl : c.toList = (".").toList := by
          rw [hct, hdot1]
          rfl
        exact hcdot (String.ext hcl)
      | cons d dt =>
        simp only [List.cons_append, List.cons.injEq] at htail
        apply hcslash
        rw [hct, htail.1]
        exact List.mem_cons_of_mem _ (List.mem_cons_self _ _)
    have hsepne : sep ≠ ':' := by rcases hsep with rfl | rfl <;> decide
    have hB : ¬ ∃ t, (winToPosix (joinSep sep ((c :: rest) ++ [posixWrapperName]))).toList
        = '.' :: '/' :: t := by
      rintro ⟨t, ht⟩
      unfold winToPosix at ht
      rw [toList_mk] at ht
      cases hctt : ct with
      | nil =>
        have hW : (joinSep sep ((c :: rest) ++ [posixWrapperName])).toList
            = c1 :: sep :: (joinSep sep (y :: ys)).toList := by
          rw [hchars, hct, hctt]
          rfl
        rw [hW] at ht
        simp only [stripDrive] at ht
        rw [if_neg hsepne] at ht
        simp only [List.map_cons, List.cons.injEq] at ht
        obtain ⟨h1, _, _⟩ := ht
        have hc1 : c1 = '.' := by
          by_cases hb : c1 = '\\'
          · exact absurd (hb ▸ hc1mem) hcback
          · rw [if_neg hb] at h1; exact h1
        have hcl : c.toList = (".").toList := by
          rw [hct, hctt, hc1]
          rfl
        exact hcdot (String.ext hcl)
      | cons d dt =>
        have hdmem : d ∈ c.toList := by
          rw [hct, hctt]
          exact List.mem_cons_of_mem _ (List.mem_cons_self _ _)
        have hdne : d ≠ ':' := fun hd => hccolon (hd ▸ hdmem)
        have hW : (joinSep sep ((c :: rest) ++ [posixWrapperName])).toList
            = c1 :: d :: (dt ++ sep :: (joinSep sep (y :: ys)).toList) := by
          rw [hchars, hct, hctt]
          rfl
        rw [hW] at ht
        simp only [stripDrive] at ht
        rw [if_neg hdne] at ht
        simp only [List.map_cons, List.cons.injEq] at ht
        obtain ⟨_, h2, _⟩ := ht
        by_cases hb : d = '\\'
        · exact hcback (hb ▸ hdmem)
        · rw [if_neg hb] at h2
          exact hcslash (h2 ▸ hdmem)
    refine ⟨?_, ?_, ?_⟩
    · apply iff_of_false ?_ hne
      intro hsw
      cases cross with
      | false =>
        simp only [firstArg, if_neg hne, Bool.false_eq_true, if_false] at hsw
        exact hA ((goStartsWith_dotSlash _).mp hsw)
      | true =>
        simp only [firstArg, if_neg hne, if_true] at hsw
        exact hB ((goStartsWith_dotSlash _).mp hsw)
    · apply iff_of_false hne
      intro hno
      rcases hsep with rfl | rfl
      · exact hno.1 hsepmem
      · exact hno.2 hsepmem
    · exact iff_of_false hne (by simp)

/-- Witness for C4's amended theorem: a wrapper one directory down gets no
`./` prefix, and the wrapper in the root does. -/
theorem firstArg_dotSlash_rule_witness :
    (goStartsWith (firstArg false (joinSep '/' (["sub"] ++ [posixWrapperName]))) "./" = true ↔
      joinSep '/' (["sub"] ++ [posixWrapperName]) = posixWrapperName) ∧
    (joinSep '/' (["sub"] ++ [posixWrapperName]) = posixWrapperName ↔
      ('/' ∉ (joinSep '/' (["sub"] ++ [posixWrapperName])).toList ∧
       '\\' ∉ (joinSep '/' (["sub"] ++ [posixWrapperName])).toList)) ∧
    (joinSep '/' (["sub"] ++ [posixWrapperName]) = posixWrapperName ↔ ["sub"] = []) :=
  firstArg_dotSlash_rule ["sub"] '/' false (Or.inl rfl) (by decide)

end GomaExec

/-! ## Claim C9: Windows input de-duplication (`dedupInputs`) -/

namespace GomaExec

/-- The replacement test of `dedupInputs` (exec.go lines 404-411): the
candidate replaces the registered entry when its original filename is
shorter, or equally long and lexicographically smaller. -/
def betterInput (a b : ExecInput) : Prop :=
  goStrLen a.filename < goStrLen b.filename ∨
    (goStrLen a.filename = goStrLen b.filename ∧ goStrLt a.filename b.filename = true)

instance : DecidableRel betterInput := fun a b => by
  unfold betterInput
  exact inferInstance

/-- The dedup key (exec.go lines 393-397): the absolute form — the working
directory joined when the filename is relative — lowercased.  The path
algebra's `IsAbs`/`Join` (winpath, not under src/) are parameters. -/
def dedupKey (isAbs : String → Bool) (join : String → String → String) (cwd : String)
    (inp : ExecInput) : String :=
  goToLower (if isAbs inp.filename then inp.filename else join cwd inp.filename)

/-- One iteration of the `dedupInputs` loop (exec.go lines 392-413).  The Go
map `m : key → index into deduped` is embedded by searching `deduped` for the
first entry with the candidate's key (the loop keeps the keys of `deduped`
pairwise distinct, so the first match is the registered index); on a hit the
entry is replaced when `betterInput`, otherwise the candidate is appended. -/
def dedupInsert (key : ExecInput → String) : List ExecInput → ExecInput → List ExecInput
  | [], inp => [inp]
  | d :: ds, inp =>
    if key d = key inp then
      (if betterInput inp d then inp else d) :: ds
    else d :: dedupInsert key ds inp

/-- `dedupInputs` (exec.go lines 388-415). -/
def dedupInputs (isAbs : String → Bool) (join : String → String → String) (cwd : String)
    (inputs : List ExecInput) : List ExecInput :=
  inputs.foldl (dedupInsert (dedupKey isAbs join cwd)) []

/-- Spec-side: the distinct keys of a list in order of first appearance. -/
def seenKeys (key : ExecInput → String) (xs : List ExecInput) : List String :=
  xs.foldl (fun acc x => if key x ∈ acc then acc else acc ++ [key x]) []

theorem betterInput_irrefl (a : ExecInput) : ¬ betterInput a a := by
  unfold betterInput
  rintro (h | ⟨_, h⟩)
  · exact Nat.lt_irrefl _ h
  · rw [goStrLt, ltChars_irrefl] at h
    exact Bool.noConfusion h

theorem betterInput_trans {a b c : ExecInput} (hab : betterInput a b) (hbc : betterInput b c) :
    betterInput a c := by
  unfold betterInput at hab hbc ⊢
  rcases hab with h1 | ⟨e1, l1⟩
  · rcases hbc with h2 | ⟨e2, _⟩
    · exact Or.inl (Nat.lt_trans h1 h2)
    · exact Or.inl (e2 ▸ h1)
  · rcases hbc with h2 | ⟨e2, l2⟩
    · exact Or.inl (e1 ▸ h2)
    · exact Or.inr ⟨e1.trans e2, ltChars_trans _ _ _ l1 l2⟩

theorem seenKeys_foldl_nodup (key : ExecInput → String) (xs : List ExecInput) :
    ∀ acc : List String, acc.Nodup →
      (xs.foldl (fun acc x => if key x ∈ acc then acc else acc ++ [key x]) acc).Nodup := by
  induction xs with
  | nil => intro acc h; exact h
  | cons x rest ih =>
    intro acc h
    simp only [List.foldl_cons]
    by_cases hm : key x ∈ acc
    · rw [if_pos hm]; exact ih acc h
    · rw [if_neg hm]
      apply ih
      rw [List.nodup_append]
      exact ⟨h, List.nodup_singleton _, fun a ha hax =>
        hm ((List.mem_singleton.mp hax) ▸ ha)⟩

theorem seenKeys_nodup (key : ExecInput → String) (xs : List ExecInput) :
    (seenKeys key xs).Nodup :=
  seenKeys_foldl_nodup key xs [] (by simp)

theorem mem_seenKeys_foldl (key : ExecInput → String) (xs : List ExecInput) (k : String) :
    ∀ acc : List String,
      (k ∈ xs.foldl (fun acc x => if key x ∈ acc then acc else acc ++ [key x]) acc ↔
        k ∈ acc ∨ ∃ y ∈ xs, key y = k) := by
  induction xs with
  | nil => intro acc; simp
  | cons x rest ih =>
    intro acc
    simp only [List.foldl_cons]
    by_cases hm : key x ∈ acc
    · rw [if_pos hm, ih]
      constructor
      · rintro (h | h)
        · exact Or.inl h
        · exact Or.inr (by rcases h with ⟨y, hy, hk⟩; exact ⟨y, List.mem_cons_of_mem x hy, hk⟩)
      · rintro (h | ⟨y, hy, hk⟩)
        · exact Or.inl h
        · rcases List.mem_cons.mp hy with rfl | hy'
          · exact Or.inl (hk ▸ hm)
          · exact Or.inr ⟨y, hy', hk⟩
    · rw [if_neg hm, ih]
      constructor
      · rintro (h | h)
        · rcases List.mem_append.mp h with h' | h'
          · exact Or.inl h'
          · exact Or.inr ⟨x, List.mem_cons_self x rest, (List.mem_singleton.mp h').symm⟩
        · exact Or.inr (by rcases h with ⟨y, hy, hk⟩; exact ⟨y, List.mem_cons_of_mem x hy, hk⟩)
      · rintro (h | ⟨y, hy, hk⟩)
        · exact Or.inl (List.mem_append.mpr (Or.inl h))
        · rcases List.mem_cons.mp hy with rfl | hy'
          · exact Or.inl (List.mem_append.mpr (Or.inr (by simp [hk])))
          · exact Or.inr ⟨y, hy', hk⟩

theorem mem_seenKeys (key : ExecInput → String) (xs : List ExecInput) (k : String) :
    k ∈ seenKeys key xs ↔ ∃ y ∈ xs, key y = k := by
  rw [seenKeys, mem_seenKeys_foldl]
  simp

theorem seenKeys_concat (key : ExecInput → String) (h : List ExecInput) (x : ExecInput) :
    seenKeys key (h ++ [x]) =
      if key x ∈ seenKeys key h then seenKeys key h else seenKeys key h ++ [key x] := by
  unfold seenKeys
  rw [List.foldl_append]
  rfl

end GomaExec

namespace GomaExec

theorem dedupInsert_keys (key : ExecInput → String) (ds : List ExecInput) (x : ExecInput) :
    (dedupInsert key ds x).map key =
      if key x ∈ ds.map key then ds.map key else ds.map key ++ [key x] := by
  induction ds with
  | nil => simp [dedupInsert]
  | cons d ds ih =>
    by_cases hd : key d = key x
    · rw [dedupInsert, if_pos hd]
      have hk : key (if betterInput x d then x else d) = key d := by
        by_cases hb : betterInput x d
        · rw [if_pos hb, hd]
        · rw [if_neg hb]
      simp only [List.map_cons, hk]
      rw [if_pos (by exact List.mem_cons.mpr (Or.inl hd.symm))]
    · rw [dedupInsert, if_neg hd]
      simp only [List.map_cons]
      have hne : ¬ key x = key d := fun he => hd he.symm
      by_cases hm : key x ∈ ds.map key
      · rw [ih, if_pos hm, if_pos (List.mem_cons.mpr (Or.inr hm))]
      · rw [ih, if_neg hm,
          if_neg (by rintro h; rcases List.mem_cons.mp h with h' | h'
                     · exact hne h'
                     · exact hm h')]
        simp

theorem dedupInsert_nonmem (key : ExecInput → String) (ds : List ExecInput) (x : ExecInput)
    (h : ∀ d ∈ ds, key d ≠ key x) :
    dedupInsert key ds x = ds ++ [x] := by
  induction ds with
  | nil => rfl
  | cons d ds ih =>
    rw [dedupInsert, if_neg (h d (List.mem_cons_self d ds)),
      ih (fun d' hd' => h d' (List.mem_cons_of_mem d hd'))]
    rfl

theorem dedupInsert_mem (key : ExecInput → String) (ds : List ExecInput) (x : ExecInput)
    (hnd : (ds.map key).Nodup) :
    ∀ e ∈ dedupInsert key ds x,
      (e ∈ ds ∧ (key e = key x → ¬ betterInput x e)) ∨
      (e = x ∧ ∀ d ∈ ds, key d = key x → betterInput x d) := by
  induction ds with
  | nil =>
    intro e he
    rcases List.mem_singleton.mp he with rfl
    exact Or.inr ⟨rfl, by simp⟩
  | cons d ds ih =>
    have hndtl : (ds.map key).Nodup := by
      simp only [List.map_cons] at hnd
      exact hnd.of_cons
    have hhead : key d ∉ ds.map key := by
      simp only [List.map_cons, List.nodup_cons] at hnd
      exact hnd.1
    intro e he
    by_cases hd : key d = key x
    · rw [dedupInsert, if_pos hd] at he
      rcases List.mem_cons.mp he with rfl | he'
      · by_cases hb : betterInput x d
        · rw [if_pos hb]
          refine Or.inr ⟨rfl, ?_⟩
          intro d' hd' hk
          rcases List.mem_cons.mp hd' with rfl | hd''
          · exact hb
          · exact absurd (by rw [hd, ← hk]; exact List.mem_map.mpr ⟨d', hd'', rfl⟩ : key d ∈ ds.map key) hhead
        · rw [if_neg hb]
          exact Or.inl ⟨List.mem_cons_self d ds, fun _ => hb⟩
      · refine Or.inl ⟨List.mem_cons_of_mem d he', ?_⟩
        intro hk
        exfalso
        apply hhead
        rw [hd, ← hk]
        exact List.mem_map.mpr ⟨e, he', rfl⟩
    · rw [dedupInsert, if_neg hd] at he
      rcases List.mem_cons.mp he with rfl | he'
      · exact Or.inl ⟨List.mem_cons_self e ds, fun hk => absurd hk hd⟩
      · rcases ih hndtl e he' with ⟨h1, h2⟩ | ⟨rfl, h2⟩
        · exact Or.inl ⟨List.mem_cons_of_mem d h1, h2⟩
        · refine Or.inr ⟨rfl, ?_⟩
          intro d' hd' hk
          rcases List.mem_cons.mp hd' with rfl | hd''
          · exact absurd hk hd
          · exact h2 d' hd'' hk

end GomaExec

namespace GomaExec

theorem dedupFold_inv (key : ExecInput → String) (xs : List ExecInput) :
    ∀ (h ds : List ExecInput),
      ds.map key = seenKeys key h →
      (∀ d ∈ ds, d ∈ h ∧ ∀ y ∈ h, key y = key d → ¬ betterInput y d) →
      ((xs.foldl (dedupInsert key) ds).map key = seenKeys key (h ++ xs) ∧
       ∀ d ∈ xs.foldl (dedupInsert key) ds, d ∈ h ++ xs ∧
         ∀ y ∈ h ++ xs, key y = key d → ¬ betterInput y d) := by
  induction xs with
  | nil =>
    intro h ds hI1 hI2
    simp only [List.foldl_nil, List.append_nil]
    exact ⟨hI1, hI2⟩
  | cons x rest ih =>
    intro h ds hI1 hI2
    simp only [List.foldl_cons]
    have happ : h ++ x :: rest = (h ++ [x]) ++ rest := by simp
    rw [happ]
    apply ih (h ++ [x]) (dedupInsert key ds x)
    · rw [dedupInsert_keys, seenKeys_concat, hI1]
    · have hnd : (ds.map key).Nodup := by
        rw [hI1]
        exact seenKeys_nodup key h
      intro e he
      rcases dedupInsert_mem key ds x hnd e he with ⟨hmem, hkey⟩ | ⟨rfl, hbeat⟩
      · have hold := hI2 e hmem
        refine ⟨List.mem_append.mpr (Or.inl hold.1), ?_⟩
        intro y hy hk
        rcases List.mem_append.mp hy with hy' | hy'
        · exact hold.2 y hy' hk
        · rcases List.mem_singleton.mp hy' with rfl
          exact hkey hk.symm
      · refine ⟨List.mem_append.mpr (Or.inr (List.mem_singleton.mpr rfl)), ?_⟩
        intro y hy hk
        rcases List.mem_append.mp hy with hy' | hy'
        · have hxk : key e ∈ ds.map key := by
            rw [hI1]
            exact (mem_seenKeys key h (key e)).mpr ⟨y, hy', hk⟩
          rcases List.mem_map.mp hxk with ⟨d0, hd0, hkd0⟩
          have hbd0 : betterInput e d0 := hbeat d0 hd0 hkd0
          have hyd0 : ¬ betterInput y d0 := (hI2 d0 hd0).2 y hy' (by rw [hk, hkd0])
          intro hyx
          exact hyd0 (betterInput_trans hyx hbd0)
        · rcases List.mem_singleton.mp hy' with rfl
          exact betterInput_irrefl _

theorem dedupFold_nodup_id (key : ExecInput → String) (ys : List ExecInput) :
    ∀ ds : List ExecInput, ((ds ++ ys).map key).Nodup →
      ys.foldl (dedupInsert key) ds = ds ++ ys := by
  induction ys with
  | nil => intro ds _; simp
  | cons y rest ih =>
    intro ds hnd
    simp only [List.foldl_cons]
    have hne : ∀ d ∈ ds, key d ≠ key y := by
      intro d hd he
      rw [List.map_append] at hnd
      rcases List.nodup_append.mp hnd with ⟨_, _, hdisj⟩
      exact hdisj (List.mem_map.mpr ⟨d, hd, rfl⟩) (by rw [he]; simp)
    rw [dedupInsert_nonmem key ds y hne]
    rw [ih (ds ++ [y]) (by rw [List.append_assoc]; simpa using hnd)]
    simp

/-- C9: `dedupInputs` is idempotent; the surviving entries carry pairwise
distinct dedup keys (lowercased absolute forms), listed in the order of each
group's first appearance; and every survivor is a member of the original
list against which no same-key member is strictly better — i.e. the survivor
has the shortest original filename, ties broken by the lexicographically
smaller filename.  The path algebra's `IsAbs`/`Join` are arbitrary
parameters (winpath is not under src/). -/
theorem dedupInputs_spec (isAbs : String → Bool) (join : String → String → String)
    (cwd : String) (xs : List ExecInput) :
    dedupInputs isAbs join cwd (dedupInputs isAbs join cwd xs) = dedupInputs isAbs join cwd xs ∧
    (dedupInputs isAbs join cwd xs).map (dedupKey isAbs join cwd) =
      seenKeys (dedupKey isAbs join cwd) xs ∧
    ((dedupInputs isAbs join cwd xs).map (dedupKey isAbs join cwd)).Nodup ∧
    ∀ d ∈ dedupInputs isAbs join cwd xs, d ∈ xs ∧
      ∀ y ∈ xs, dedupKey isAbs join cwd y = dedupKey isAbs join cwd d → ¬ betterInput y d := by
  unfold dedupInputs
  have hmain := dedupFold_inv (dedupKey isAbs join cwd) xs [] [] rfl
    (by intro d hd; simp at hd)
  simp only [List.nil_append] at hmain
  refine ⟨?_, hmain.1, ?_, hmain.2⟩
  · have hnodup : ((([] : List ExecInput) ++
        (xs.foldl (dedupInsert (dedupKey isAbs join cwd)) [])).map
          (dedupKey isAbs join cwd)).Nodup := by
      simp only [List.nil_append]
      rw [hmain.1]
      exact seenKeys_nodup _ _
    have hid := dedupFold_nodup_id (dedupKey isAbs join cwd)
      (xs.foldl (dedupInsert (dedupKey isAbs join cwd)) []) [] hnodup
    simpa using hid
  · rw [hmain.1]
    exact seenKeys_nodup _ _

/-- Witness for C9 at the spec's own example: `C:\Foo.h` and `c:\foo.h`
collide after lowercasing and the lexicographically smaller original name
survives; deduplication is idempotent there. -/
theorem dedupInputs_spec_witness :
    dedupInputs (fun _ => true) (fun a b => a ++ b) ""
        [⟨"C:\\Foo.h", none, ""⟩, ⟨"c:\\foo.h", none, ""⟩] =
      [⟨"C:\\Foo.h", none, ""⟩] ∧
    dedupInputs (fun _ => true) (fun a b => a ++ b) ""
        (dedupInputs (fun _ => true) (fun a b => a ++ b) ""
          [⟨"C:\\Foo.h", none, ""⟩, ⟨"c:\\foo.h", none, ""⟩]) =
      dedupInputs (fun _ => true) (fun a b => a ++ b) ""
        [⟨"C:\\Foo.h", none, ""⟩, ⟨"c:\\foo.h", none, ""⟩] :=
  ⟨by decide,
    (dedupInputs_spec (fun _ => true) (fun a b => a ++ b) ""
      [⟨"C:\\Foo.h", none, ""⟩, ⟨"c:\\foo.h", none, ""⟩]).1⟩

end GomaExec
